import Mathlib

/-!
# Verification of the P4 Typemap Rule Engine (p4typemaptool.js)

A shallow embedding of the typemap rule engine of `p4typemaptool.js`:
the rule data model, the typemap parsers (indexed-record form and
text-block form), the serializer, the conflict detector, the wildcard
matcher, the template parser/merge engine and the path-test query.

Strings are modelled as `List Char`.  The JavaScript string primitives the
source uses (`trim`, `split(/\s+/)`, `indexOf("##")`, `startsWith`,
`includes`, `replace(/.../g, ...)`, `parseInt`) are modelled explicitly
below with their ECMAScript behaviour on the character sets involved
(whitespace is taken as space, tab, CR, LF — the characters that occur in
the typemap wire format).
-/

namespace Typemap

/-- Whitespace as matched by the source's `trim()` / `/\s+/` uses. -/
def isWsChar (c : Char) : Bool :=
  c = ' ' || c = '\t' || c = '\n' || c = '\r'

/-- `[a-zA-Z0-9]`, the character class of `extractExtension`'s regex. -/
def isAlnumChar (c : Char) : Bool :=
  (('a' ≤ c && c ≤ 'z') || ('A' ≤ c && c ≤ 'Z') || ('0' ≤ c && c ≤ '9'))

/-- JavaScript `String.prototype.trim`: strip whitespace from both ends. -/
def jsTrim (s : List Char) : List Char :=
  ((s.dropWhile isWsChar).reverse.dropWhile isWsChar).reverse

/-- Worker for `split(/\s+/)`.  `inWs = false`: currently building a token
whose characters so far are `acc` (reversed); `inWs = true`: currently
inside a whitespace run, the previous token already emitted. -/
def splitWsGo : List Char → List Char → Bool → List (List Char)
  | [], acc, false => [acc.reverse]
  | [], _, true => [[]]
  | c :: r, acc, false =>
      if isWsChar c then acc.reverse :: splitWsGo r [] true
      else splitWsGo r (c :: acc) false
  | c :: r, _, true =>
      if isWsChar c then splitWsGo r [] true
      else splitWsGo r [c] false

/-- JavaScript `s.split(/\s+/)`: split on maximal whitespace runs.  As in
JS, a leading (resp. trailing) whitespace run produces an empty first
(resp. last) element, and splitting `""` gives `[""]`. -/
def jsSplitWs (s : List Char) : List (List Char) :=
  splitWsGo s [] false

/-- `parts.join(" ")`. -/
def joinSpace : List (List Char) → List Char
  | [] => []
  | [t] => t
  | t :: ts => t ++ ' ' :: joinSpace ts

/-- Split a text block on `'\n'` (JavaScript `text.split("\n")`). -/
def splitNl (s : List Char) : List (List Char) :=
  match s with
  | [] => [[]]
  | c :: r =>
      if c = '\n' then [] :: splitNl r
      else
        match splitNl r with
        | [] => [[c]]
        | t :: ts => (c :: t) :: ts

/-- `lines.join("\n")`. -/
def joinNl : List (List Char) → List Char
  | [] => []
  | [t] => t
  | t :: ts => t ++ '\n' :: joinNl ts

/-- `s.startsWith("##")`. -/
def startsWithHH (s : List Char) : Bool :=
  s.take 2 = ['#', '#']

/-- First index at which the substring `"##"` occurs
(JavaScript `s.indexOf("##")`, as an `Option` instead of `-1`): the
first position whose suffix starts with `##`. -/
def indexOfHH : List Char → Option Nat
  | [] => none
  | c :: r =>
      if startsWithHH (c :: r) then some 0
      else (indexOfHH r).map (· + 1)

/-- JavaScript `hay.includes(needle)` (substring test). -/
def jsIncludes (hay needle : List Char) : Bool :=
  (List.range (hay.length + 1)).any fun i => needle.isPrefixOf (hay.drop i)

/-- Fuelled worker for `s.replace(/<needle>/g, repl)` with a literal
needle: scan left to right, replacing non-overlapping occurrences.  The
fuel is an upper bound on the number of characters consumed; `jsReplaceAll`
always supplies enough. -/
def replGo : Nat → List Char → List Char → List Char → List Char
  | 0, _, _, s => s
  | _ + 1, _, _, [] => []
  | f + 1, needle, repl, c :: rest =>
      if needle ≠ [] && needle.isPrefixOf (c :: rest) then
        repl ++ replGo f needle repl ((c :: rest).drop needle.length)
      else
        c :: replGo f needle repl rest

/-- JavaScript `s.replace(/<needle>/g, repl)` for a literal needle. -/
def jsReplaceAll (needle repl s : List Char) : List Char :=
  replGo (s.length + 1) needle repl s

/-- JavaScript `parseInt(s)` restricted to radix 10: optional leading
whitespace, optional sign, then a digit run; `none` models `NaN`. -/
def jsParseInt (s : List Char) : Option Int :=
  let t := s.dropWhile isWsChar
  let (neg, t) : Bool × List Char :=
    match t with
    | '-' :: r => (true, r)
    | '+' :: r => (false, r)
    | r => (false, r)
  let digits := t.takeWhile (fun c => '0' ≤ c && c ≤ '9')
  if digits = [] then none
  else
    let n := digits.foldl (fun a c => a * 10 + (c.toNat - '0'.toNat)) 0
    some (if neg then -(n : Int) else (n : Int))

/-! ## The rule model -/

/-- One typemap entry as built by the parsers and mutated by the editor
operations.  `id` is modelled as a `Nat` drawn from a threaded counter
(the source uses `generateId()`, an opaque fresh string). -/
structure Rule where
  id : Nat
  order : Nat
  filetype : List Char
  pattern : List Char
  comment : List Char
  originalLine : List Char
  fromTemplate : Bool
deriving DecidableEq, Repr

/-- A rule as produced by `parseTemplateContent` (no id/order yet). -/
structure TRule where
  filetype : List Char
  pattern : List Char
  comment : List Char
deriving DecidableEq, Repr

/-- The `(filetype, pattern, comment)` tuple of a rule — the part of a
rule that the round-trip law is about. -/
def Rule.tuple (r : Rule) : List Char × List Char × List Char :=
  (r.filetype, r.pattern, r.comment)

/-- Shorthand: the character list of a string literal. -/
def str (s : String) : List Char := s.toList

/-! ## Stable sorting and order renormalization

The source sorts with `rules.sort((a, b) => a.order - b.order)`; ECMAScript
`Array.prototype.sort` is stable, modelled by a stable insertion sort
(an element is inserted before the first element it compares `≤` to,
i.e. ties keep their original relative position). -/

/-- Stable insertion of `x` into a list already sorted by `le`. -/
def insertBy (le : α → α → Bool) (x : α) : List α → List α
  | [] => [x]
  | y :: ys => if le x y then x :: y :: ys else y :: insertBy le x ys

/-- Stable sort by `le` (insertion sort, processing the list right to
left so earlier elements are inserted in front of tied later ones). -/
def sortBy' (le : α → α → Bool) (l : List α) : List α :=
  l.foldr (insertBy le) []

/-- `[...rules].sort((a, b) => a.order - b.order)`. -/
def sortByOrder (rules : List Rule) : List Rule :=
  sortBy' (fun a b => a.order ≤ b.order) rules

/-- `reorderRules()`: sort by `order`, then reassign `1..N`. -/
def reorderRules (rules : List Rule) : List Rule :=
  (sortByOrder rules).enum.map fun p => { p.2 with order := p.1 + 1 }

/-! ## Serializer (`generateTypemapText`)

The first variant of the source trims the comment when emitting
(`` line += ` ## ${rule.comment.trim()}` ``); the second variant emits the
comment untrimmed.  The first variant — the one the round-trip law cites —
is embedded; the two agree on trim-stable comments. -/

/-- The line emitted for one rule: `        <filetype> <pattern>`,
plus ` ## <comment>` when the comment is non-empty after trimming. -/
def renderRuleLine (r : Rule) : List Char :=
  let base := str "        " ++ r.filetype ++ [' '] ++ r.pattern
  if jsTrim r.comment ≠ [] then base ++ str " ## " ++ jsTrim r.comment else base

/-- The `lines` array built by `generateTypemapText` before joining. -/
def generateTypemapLines (rules : List Rule) : List (List Char) :=
  (sortByOrder rules).map renderRuleLine

/-- `generateTypemapText()`: sort by order, render each rule, join with
newlines.  Note: the function is total — the source performs no
validation of empty patterns or filetypes. -/
def generateTypemapText (rules : List Rule) : List Char :=
  joinNl (generateTypemapLines rules)

/-! ## Typemap parsers -/

/-- The per-line parsing common to both typemap parsers and the template
parser: trim; skip blank and pure-`##` lines; split off an inline
`## comment`; split the remaining text on whitespace into
`filetype` (first token) and `pattern` (rest, rejoined with single
spaces); lines with fewer than two tokens yield `none`. -/
def parseTypemapLine (line : List Char) : Option (List Char × List Char × List Char) :=
  let trimmedLine := jsTrim line
  if trimmedLine = [] then none
  else if startsWithHH trimmedLine then none
  else
    let wc : List Char × List Char :=
      match indexOfHH trimmedLine with
      | some i => (jsTrim (trimmedLine.take i), jsTrim (trimmedLine.drop (i + 2)))
      | none => (trimmedLine, [])
    match jsSplitWs wc.1 with
    | ft :: p :: rest => some (ft, joinSpace (p :: rest), wc.2)
    | _ => none

/-- Loop of the text-block `parseTypemapData` (the variant reading
`data[0].TypeMap` as a multi-line text block): `order` is a strictly
increasing counter over successfully parsed lines. -/
def parseTypemapTextBlockGo : List (List Char) → Nat → List Rule
  | [], _ => []
  | line :: ls, ord =>
      match parseTypemapLine line with
      | some t =>
          { id := ord, order := ord, filetype := t.1, pattern := t.2.1,
            comment := t.2.2, originalLine := line, fromTemplate := false }
            :: parseTypemapTextBlockGo ls (ord + 1)
      | none => parseTypemapTextBlockGo ls ord

/-- `parseTypemapData` (text-block variant): split the `TypeMap` text on
newlines and parse each line; an empty input yields an empty list. -/
def parseTypemapTextBlock (text : List Char) : List Rule :=
  parseTypemapTextBlockGo (splitNl text) 1

/-! ### Indexed-record parser

The other `parseTypemapData` variant reads a record with keys
`TypeMap0`, `TypeMap1`, … and optional sidecar `TypeMapComment<i>` keys.
A record is modelled as its enumerable string key/value pairs in
insertion order.  `parseInt` on a non-numeric suffix gives `NaN`
(modelled `none`); the ECMAScript sort comparator treats a `NaN` result
as `+0`, i.e. such entries compare equal to everything. -/

/-- An indexed `TypeMap<i>` entry awaiting sorting. -/
structure TMEntry where
  index : Option Int
  value : List Char
deriving DecidableEq, Repr

/-- The comparator `(a, b) => a.index - b.index` as a `≤` test
(`NaN` differences compare as equal, hence `true` both ways). -/
def tmEntryLe (a b : TMEntry) : Bool :=
  match a.index, b.index with
  | some i, some j => i ≤ j
  | _, _ => true

/-- Scan the record's keys, extracting `TypeMapComment<i>` sidecar
comments and `TypeMap<i>` entries (the source tests
`key.startsWith("TypeMapComment")` first). -/
def scanRecordKeys : List (List Char × List Char) →
    List (Option Int × List Char) × List TMEntry
  | [] => ([], [])
  | (key, val) :: rest =>
      let (cs, es) := scanRecordKeys rest
      if (str "TypeMapComment").isPrefixOf key then
        ((jsParseInt (key.drop (str "TypeMapComment").length), val) :: cs, es)
      else if (str "TypeMap").isPrefixOf key then
        (cs, ⟨jsParseInt (key.drop (str "TypeMap").length), val⟩ :: es)
      else (cs, es)

/-- `commentEntries[index]`: object-property lookup where later
assignments to the same index overwrite earlier ones. -/
def lookupComment (idx : Option Int) (cs : List (Option Int × List Char)) :
    Option (List Char) :=
  (cs.reverse.find? fun p => p.1 = idx).map (·.2)

/-- `value.replace(/^##\s*/, "")`: strip one leading `##` and the
following whitespace run, if present. -/
def stripLeadingHH (s : List Char) : List Char :=
  if startsWithHH s then (s.drop 2).dropWhile isWsChar else s

/-- Loop of the indexed-record `parseTypemapData`: parse each sorted
entry's value as a typemap line; when the line carries no inline comment,
fall back to a non-empty sidecar `TypeMapComment<i>` (leading `##` and
whitespace stripped, then trimmed). -/
def parseTypemapRecordGo (cs : List (Option Int × List Char)) :
    List TMEntry → Nat → List Rule
  | [], _ => []
  | e :: es, ord =>
      match parseTypemapLine e.value with
      | some t =>
          let comment :=
            if t.2.2 = [] then
              match lookupComment e.index cs with
              | some ce => if ce ≠ [] then jsTrim (stripLeadingHH ce) else t.2.2
              | none => t.2.2
            else t.2.2
          { id := ord, order := ord, filetype := t.1, pattern := t.2.1,
            comment := comment, originalLine := e.value, fromTemplate := false }
            :: parseTypemapRecordGo cs es (ord + 1)
      | none => parseTypemapRecordGo cs es ord

/-- `parseTypemapData` (indexed-record variant). -/
def parseTypemapRecord (data : List (List (List Char × List Char))) : List Rule :=
  match data with
  | [] => []
  | record :: _ =>
      let (cs, es) := scanRecordKeys record
      parseTypemapRecordGo cs (sortBy' tmEntryLe es) 1

/-! ## Template parser (`parseTemplateContent`) -/

/-- Loop of `parseTemplateContent`: skip blanks and `#`-lines, wait for
the `TypeMap:` marker, then parse body lines like typemap lines. -/
def parseTemplateContentGo : List (List Char) → Bool → List TRule
  | [], _ => []
  | line :: ls, inSec =>
      let t := jsTrim line
      if t = [] then parseTemplateContentGo ls inSec
      else if t.take 1 = ['#'] then parseTemplateContentGo ls inSec
      else if t = str "TypeMap:" then parseTemplateContentGo ls true
      else if !inSec then parseTemplateContentGo ls inSec
      else
        match parseTypemapLine line with
        | some p => ⟨p.1, p.2.1, p.2.2⟩ :: parseTemplateContentGo ls inSec
        | none => parseTemplateContentGo ls inSec

/-- `parseTemplateContent(content)`. -/
def parseTemplateContent (content : List Char) : List TRule :=
  parseTemplateContentGo (splitNl content) false

/-! ## Editor operations (add / delete / move) -/

/-- `addNewRule()`: append a fresh `binary //....` rule with
`order = length + 1` (the source variant cited sets no comment). -/
def addNewRule (seed : Nat) (rules : List Rule) : List Rule :=
  rules ++ [{ id := seed, order := rules.length + 1, filetype := str "binary",
              pattern := str "//....", comment := [], originalLine := [],
              fromTemplate := false }]

/-- `deleteRule(ruleId)` (confirmed branch): filter the rule out, then
renormalize orders. -/
def deleteRule (rid : Nat) (rules : List Rule) : List Rule :=
  reorderRules (rules.filter fun r => r.id ≠ rid)

/-- `moveRuleUp(ruleId)`: find the rule, find the (first) rule whose
order is one less, and swap the two rules' `order` values.  The search
`r.order === currentRule.order - 1` is expressed as
`r.order + 1 = cur.order` to avoid `Nat` truncation at 0 (over the
source's number type the two are equivalent). -/
def moveRuleUp (rid : Nat) (rules : List Rule) : List Rule :=
  match rules.findIdx? (fun r => r.id = rid) with
  | none => rules
  | some i =>
      match rules.get? i with
      | none => rules
      | some cur =>
          match rules.findIdx? (fun r => r.order + 1 = cur.order) with
          | none => rules
          | some j =>
              match rules.get? j with
              | none => rules
              | some prev =>
                  (rules.set i { cur with order := prev.order }).set j
                    { prev with order := cur.order }

/-- `moveRuleDown(ruleId)`: symmetric to `moveRuleUp`, swapping with the
(first) rule whose order is one greater. -/
def moveRuleDown (rid : Nat) (rules : List Rule) : List Rule :=
  match rules.findIdx? (fun r => r.id = rid) with
  | none => rules
  | some i =>
      match rules.get? i with
      | none => rules
      | some cur =>
          match rules.findIdx? (fun r => r.order = cur.order + 1) with
          | none => rules
          | some j =>
              match rules.get? j with
              | none => rules
              | some nxt =>
                  (rules.set i { cur with order := nxt.order }).set j
                    { nxt with order := cur.order }

/-! ## Template merge engine (`mergeTemplateRules`) -/

/-- The merge report: `added` and `skipped` carry the incoming template
rule; `conflicts` carries it together with the existing rule's filetype. -/
structure MergeReport where
  added : List TRule
  skipped : List TRule
  conflicts : List (TRule × List Char)
deriving DecidableEq, Repr

/-- `findExistingRule(pattern)`: first rule with an identical pattern. -/
def findExistingRule (pat : List Char) (rules : List Rule) : Option Rule :=
  rules.find? fun r => r.pattern = pat

/-- A rule appended by the merge for template rule `t` (fresh id from the
threaded `seed`, `order = length + 1`, `fromTemplate` set). -/
def templateNewRule (seed : Nat) (len : Nat) (t : TRule) : Rule :=
  { id := seed, order := len + 1, filetype := t.filetype, pattern := t.pattern,
    comment := t.comment, originalLine := [], fromTemplate := true }

/-- The merge loop: each incoming rule is looked up (by exact pattern) in
the current — progressively extended — rule list and recorded as added,
skipped, or conflicting (conflicting rules are appended too). -/
def mergeGo : List TRule → List Rule → Nat → List Rule × MergeReport
  | [], rules, _ => (rules, ⟨[], [], []⟩)
  | t :: ts, rules, seed =>
      match findExistingRule t.pattern rules with
      | none =>
          let res := mergeGo ts (rules ++ [templateNewRule seed rules.length t]) (seed + 1)
          (res.1, { res.2 with added := t :: res.2.added })
      | some ex =>
          if ex.filetype = t.filetype then
            let res := mergeGo ts rules seed
            (res.1, { res.2 with skipped := t :: res.2.skipped })
          else
            let res := mergeGo ts (rules ++ [templateNewRule seed rules.length t]) (seed + 1)
            (res.1, { res.2 with conflicts := (t, ex.filetype) :: res.2.conflicts })

/-- `mergeTemplateRules(templateRules)`: run the merge loop, then
renormalize orders. -/
def mergeTemplateRules (rules : List Rule) (tmpl : List TRule) (seed : Nat) :
    List Rule × MergeReport :=
  let res := mergeGo tmpl rules seed
  (reorderRules res.1, res.2)

/-! ## Conflict detector -/

/-- The three overlap kinds returned by `checkPatternOverlap`. -/
inductive ConflictKind
  | exact
  | specificity
  | broadWildcard
deriving DecidableEq, Repr

/-- `extractExtension(pattern)`: the suffix matched by
`/\.([a-zA-Z0-9]+)$/`, i.e. a non-empty trailing alphanumeric run
preceded by a literal dot. -/
def extractExtension (pattern : List Char) : Option (List Char) :=
  let rev := pattern.reverse
  let ext := rev.takeWhile isAlnumChar
  match ext, rev.drop ext.length with
  | [], _ => none
  | _, '.' :: _ => some ext.reverse
  | _, _ => none

/-- The de-wildcarded literal of a pattern: remove all `....` runs, then
all `...` runs. -/
def dewildcard (pattern : List Char) : List Char :=
  jsReplaceAll (str "...") [] (jsReplaceAll (str "....") [] pattern)

/-- `checkPatternOverlap(pattern1, pattern2)`: exact equality; else same
literal extension with one de-wildcarded path a substring of the other;
else either pattern being the catch-all `//...`. -/
def checkPatternOverlap (pattern1 pattern2 : List Char) : Option ConflictKind :=
  if pattern1 = pattern2 then some .exact
  else
    let spec : Option ConflictKind :=
      match extractExtension pattern1, extractExtension pattern2 with
      | some e1, some e2 =>
          if e1 = e2 then
            let path1 := dewildcard pattern1
            let path2 := dewildcard pattern2
            if jsIncludes path1 path2 || jsIncludes path2 path1 then
              some .specificity
            else none
          else none
      | _, _ => none
    match spec with
    | some k => some k
    | none =>
        if (pattern1 = str "//..." || pattern2 = str "//...") &&
            pattern1 ≠ pattern2 then
          some .broadWildcard
        else none

/-- One conflict message produced by `checkRuleConflicts`:
`Overridden by rule <order> (<filetype>)` or `Duplicated by rule <order>`. -/
inductive ConflictMsg
  | overridden (order : Nat) (filetype : List Char)
  | duplicated (order : Nat)
deriving DecidableEq, Repr

/-- `checkRuleConflicts(rule)`: check the rule against every rule at a
later array position (`findIndex` by id; a missing id gives `-1`, so the
whole array is scanned). -/
def checkRuleConflicts (rule : Rule) (rules : List Rule) : List ConflictMsg :=
  let laterRules :=
    match rules.findIdx? (fun r => r.id = rule.id) with
    | some i => rules.drop (i + 1)
    | none => rules
  laterRules.filterMap fun laterRule =>
    match checkPatternOverlap rule.pattern laterRule.pattern with
    | some _ =>
        some (if rule.filetype ≠ laterRule.filetype then
                ConflictMsg.overridden laterRule.order laterRule.filetype
              else ConflictMsg.duplicated laterRule.order)
    | none => none

/-! ## Wildcard matcher (`pathMatchesPattern`)

The source builds a regex *string* by successive global replacements and
evaluates it with `new RegExp("^" + regexPattern + ",i").test(path)`.
Note two consequences embedded faithfully below: the intended `"i"` flag
is concatenated into the pattern as the literal characters `,i`, and the
`[`/`]` escaping steps run *after* the wildcard replacements, so they
also escape the brackets of the freshly inserted `[^/]` classes. -/

/-- The regex source string built by `pathMatchesPattern`, including the
leading `^` anchor and the trailing literal `,i`. -/
def buildRegexString (pattern : List Char) : List Char :=
  let r := jsReplaceAll (str "....") (str ".*") pattern
  let r := jsReplaceAll (str "...") (str "[^/]*") r
  let r := jsReplaceAll (str "*") (str "[^/]*") r
  let r := jsReplaceAll (str "?") (str ".") r
  let r := jsReplaceAll (str "+") (str "\\+") r
  let r := jsReplaceAll (str "(") (str "\\(") r
  let r := jsReplaceAll (str ")") (str "\\)") r
  let r := jsReplaceAll (str "[") (str "\\[") r
  let r := jsReplaceAll (str "]") (str "\\]") r
  ['^'] ++ r ++ [',', 'i']

/-- A regex atom of the fragment the construction can produce: a literal
character, the any-character dot, or a `^` start-of-input assertion. -/
inductive RAtom
  | lit (c : Char)
  | anyDot
  | caret
deriving DecidableEq, Repr

/-- Characters that are regex metacharacters outside the fragment the
interpreter covers; a pattern producing one of these unescaped is
treated as failing to compile (the source's `catch` path). -/
def regexSpecials : List Char := ['(', ')', '[', ']', '{', '}', '+', '?', '|', '$']

/-- Parse the generated regex string into a sequence of possibly-starred
atoms.  `\c` is an ECMAScript identity escape for non-alphanumeric `c`
(the construction only escapes `+ ( ) [ ]`); escapes of alphanumerics
(character-class escapes) and unsupported metacharacters make the parse
fail, which `pathMatchesPattern` maps to `false`. -/
def parseRegexGo : List Char → Option (List (RAtom × Bool))
  | [] => some []
  | ['\\'] => none
  | '\\' :: c :: '*' :: rest =>
      if isAlnumChar c then none
      else (parseRegexGo rest).map ((RAtom.lit c, true) :: ·)
  | '\\' :: c :: rest =>
      if isAlnumChar c then none
      else (parseRegexGo rest).map ((RAtom.lit c, false) :: ·)
  | '^' :: '*' :: _ => none
  | '^' :: rest => (parseRegexGo rest).map ((RAtom.caret, false) :: ·)
  | '*' :: _ => none
  | '.' :: '*' :: rest => (parseRegexGo rest).map ((RAtom.anyDot, true) :: ·)
  | '.' :: rest => (parseRegexGo rest).map ((RAtom.anyDot, false) :: ·)
  | c :: '*' :: rest =>
      if c ∈ regexSpecials then none
      else (parseRegexGo rest).map ((RAtom.lit c, true) :: ·)
  | c :: rest =>
      if c ∈ regexSpecials then none
      else (parseRegexGo rest).map ((RAtom.lit c, false) :: ·)

/-- Whether an atom consumes the character `d` (`.` excludes the line
terminator; a `^` assertion consumes nothing and never matches a
character). -/
def atomMatch : RAtom → Char → Bool
  | .lit c, d => c = d
  | .anyDot, d => d ≠ '\n'
  | .caret, _ => false

/-- Fuelled backtracking matcher for a sequence of possibly-starred
atoms against the input suffix `s`, where `pos` is the absolute position
of `s` in the full input (so the `^` assertion holds iff `pos = 0`).
Success does not require consuming all of `s` (`test` looks for a match,
not a full match).  Each recursive call shrinks `(s, atoms)`
lexicographically, so fuel `(|s|+1)*(|atoms|+1)+1` never runs out. -/
def rmatchGo : Nat → List (RAtom × Bool) → List Char → Nat → Bool
  | 0, _, _, _ => false
  | _ + 1, [], _, _ => true
  | f + 1, (a, st) :: es, s, pos =>
      match a, st with
      | .caret, false => decide (pos = 0) && rmatchGo f es s pos
      | _, false =>
          match s with
          | c :: s' => atomMatch a c && rmatchGo f es s' (pos + 1)
          | [] => false
      | _, true =>
          rmatchGo f es s pos ||
            match s with
            | c :: s' => atomMatch a c && rmatchGo f ((a, st) :: es) s' (pos + 1)
            | [] => false

/-- `regex.test(path)`: try a match starting at every position. -/
def jsTest (es : List (RAtom × Bool)) (s : List Char) : Bool :=
  (List.range (s.length + 1)).any fun i =>
    rmatchGo ((s.length + 1) * (es.length + 1) + 1) es (s.drop i) i

/-- `pathMatchesPattern(path, pattern)`: build the regex string, compile
it, and test the path; a pattern that fails to compile returns `false`. -/
def pathMatchesPattern (path pattern : List Char) : Bool :=
  match parseRegexGo (buildRegexString pattern) with
  | some es => jsTest es path
  | none => false

/-! ## Path test (`testPath`) -/

/-- The outcome shown by `testPath`: cleared (blank) for an empty input,
otherwise the last matching rule's filetype and order, or no-match. -/
inductive TestOutcome
  | blank
  | noMatch
  | matched (filetype : List Char) (order : Nat)
deriving DecidableEq, Repr

/-- The loop of `testPath`: remember the last rule (in array order) whose
pattern matches. -/
def testPathLoop (path : List Char) : List Rule → Option Rule → Option Rule
  | [], acc => acc
  | r :: rs, acc =>
      testPathLoop path rs
        (if pathMatchesPattern path r.pattern then some r else acc)

/-- `testPath()`: trim the input (an empty input clears the result),
then report the last matching rule's filetype and order, or no-match. -/
def testPath (input : List Char) (rules : List Rule) : TestOutcome :=
  let p := jsTrim input
  if p = [] then .blank
  else
    match testPathLoop p rules none with
    | some r => .matched r.filetype r.order
    | none => .noMatch

/-! ## Basic lemmas about the stable sort -/

theorem insertBy_perm (le : α → α → Bool) (x : α) (l : List α) :
    List.Perm (insertBy le x l) (x :: l) := by
  induction l with
  | nil => simp [insertBy]
  | cons y ys ih =>
      simp only [insertBy]
      split
      · exact List.Perm.refl _
      · exact ((ih.cons y).trans (List.Perm.swap x y ys))

theorem sortBy'_perm (le : α → α → Bool) (l : List α) : List.Perm (sortBy' le l) l := by
  induction l with
  | nil => rfl
  | cons x xs ih =>
      exact ((insertBy_perm le x (sortBy' le xs)).trans (ih.cons x))

theorem length_sortBy' (le : α → α → Bool) (l : List α) :
    (sortBy' le l).length = l.length :=
  (sortBy'_perm le l).length_eq

theorem sortByOrder_perm (rules : List Rule) : List.Perm (sortByOrder rules) rules :=
  sortBy'_perm _ rules

theorem length_generateTypemapLines (rules : List Rule) :
    (generateTypemapLines rules).length = rules.length := by
  simp [generateTypemapLines, sortByOrder, length_sortBy']

/-! ## Concrete rule lists used by individual claims -/

/-- C5: rule 1 of the spec's conflict-detection vector. -/
def c5rule1 : Rule :=
  { id := 1, order := 1, filetype := str "text", pattern := str "//....txt",
    comment := [], originalLine := [], fromTemplate := false }

/-- C5: rule 2 of the spec's conflict-detection vector. -/
def c5rule2 : Rule :=
  { id := 2, order := 2, filetype := str "binary",
    pattern := str "//special/....txt", comment := [], originalLine := [],
    fromTemplate := false }

/-- C4: a rule with an empty filetype (invalid per the spec's serializer
precondition). -/
def c4badRule : Rule :=
  { id := 1, order := 1, filetype := [], pattern := str "//x",
    comment := [], originalLine := [], fromTemplate := false }

/-- C8: a matching rule with the higher order, listed first. -/
def c8ruleHigh : Rule :=
  { id := 1, order := 2, filetype := str "binary", pattern := str "a",
    comment := [], originalLine := [], fromTemplate := false }

/-- C8: a matching rule with the lower order, listed last. -/
def c8ruleLow : Rule :=
  { id := 2, order := 1, filetype := str "text", pattern := str "a",
    comment := [], originalLine := [], fromTemplate := false }

/-! ## Claim C1 — the wildcard matcher on the spec's test vectors -/

/-- C1: `pathMatchesPattern` returns `false` on all four of the spec's
matcher test vectors — in particular it returns `false` on
`matches("//depot/foo.txt", "//....txt")` and
`matches("//depot/a/b/c", "//depot/...")`, where the claim requires
`true`.  The regex is built as `^<translation>,i` (the intended `"i"`
flag is concatenated into the pattern) and the `[`/`]` escaping runs
after the wildcard replacements, so the matcher cannot match any of
these paths. -/
theorem c1_matcher_vectors_eval :
    pathMatchesPattern (str "//depot/foo.txt") (str "//....txt") = false ∧
    pathMatchesPattern (str "//depot/foo.bin") (str "//....txt") = false ∧
    pathMatchesPattern (str "//depot/a/b/c") (str "//depot/...") = false ∧
    pathMatchesPattern (str "//depot/a/x") (str "//depot/*/y") = false := by
  decide

/-! ## Claim C4 — serialization of rules with empty fields -/

/-- C4 (counterexample): serializing a rule list containing a rule with
an empty filetype does not fail — it produces output text containing the
malformed line `(8 spaces)(empty filetype)( )//x`, contradicting the
claim that serialization fails with a descriptive error instead of
emitting a line for such a rule. -/
theorem c4_counterexample :
    generateTypemapText [c4badRule] = str "         //x" := by
  decide

/-- C4 (amended): serialization is total and performs no validation: for
every rule list — including rules with empty pattern or filetype — it
emits exactly one line per rule, and every rule's rendered line appears
in the output lines. -/
theorem c4_amended_serializer_total (rules : List Rule) :
    (generateTypemapLines rules).length = rules.length ∧
    ∀ r ∈ rules, renderRuleLine r ∈ generateTypemapLines rules := by
  refine ⟨length_generateTypemapLines rules, fun r hr => ?_⟩
  exact List.mem_map_of_mem renderRuleLine ((sortByOrder_perm rules).mem_iff.mpr hr)

/-- C4 (amended, witness): the totality theorem at the concrete rule
list containing the empty-filetype rule. -/
theorem c4_amended_serializer_total_witness :
    (generateTypemapLines [c4badRule]).length = 1 ∧
    renderRuleLine c4badRule ∈ generateTypemapLines [c4badRule] := by
  have h := c4_amended_serializer_total [c4badRule]
  exact ⟨h.1, h.2 c4badRule (by decide)⟩

/-! ## Claim C5 — the spec's conflict-detection vector -/

/-- C5 (counterexample): for the spec's two-rule vector, the conflict
check for rule 1 reports no conflict at all (the claim requires an
override conflict naming rule 2): the de-wildcarded literals are
`//txt` and `//special/txt`, which are not in a substring relation, so
`checkPatternOverlap` returns `none`. -/
theorem c5_counterexample :
    checkRuleConflicts c5rule1 [c5rule1, c5rule2] = [] := by
  decide

/-- C5 (amended): for the rule list
`[(order 1, //....txt, text), (order 2, //special/....txt, binary)]`
the conflict check flags neither rule, and likewise after the two rules'
orders are swapped: the specificity heuristic compares the de-wildcarded
literals `//txt` and `//special/txt`, which contain each other in
neither direction. -/
theorem c5_amended_no_conflict_either_way :
    checkRuleConflicts c5rule1 [c5rule1, c5rule2] = [] ∧
    checkRuleConflicts c5rule2 [c5rule1, c5rule2] = [] ∧
    checkRuleConflicts { c5rule1 with order := 2 }
      [{ c5rule1 with order := 2 }, { c5rule2 with order := 1 }] = [] ∧
    checkRuleConflicts { c5rule2 with order := 1 }
      [{ c5rule1 with order := 2 }, { c5rule2 with order := 1 }] = [] := by
  decide

/-! ## Claim C8 — counterexample to "highest order wins" -/

/-- C8 (counterexample): `testPath` keeps the last match in *array*
order, not the highest-order match: for the list
`[(order 2, binary, pattern "a"), (order 1, text, pattern "a")]` and the
path `"a,i"` both patterns match, yet the result is the filetype of the
order-1 rule (`text`), not of the highest-order matching rule
(`binary`, order 2). -/
theorem c8_counterexample :
    pathMatchesPattern (str "a,i") c8ruleHigh.pattern = true ∧
    pathMatchesPattern (str "a,i") c8ruleLow.pattern = true ∧
    c8ruleHigh.order = 2 ∧ c8ruleLow.order = 1 ∧
    c8ruleHigh.filetype = str "binary" ∧
    testPath (str "a,i") [c8ruleHigh, c8ruleLow] =
      TestOutcome.matched (str "text") 1 := by
  refine ⟨by decide, by decide, rfl, rfl, rfl, by decide⟩

/-! ## Claim C10 — symmetry of the pattern-overlap check -/

/-- C10: the pattern-overlap check is symmetric: for every pair of
pattern strings, `checkPatternOverlap p1 p2` reports an overlap if and
only if `checkPatternOverlap p2 p1` does.  Each of the three overlap
conditions (exact equality; shared extension with substring containment
in either direction; either pattern being the catch-all `//...`) is
symmetric in the two patterns. -/
theorem c10_overlap_symmetric (p1 p2 : List Char) :
    (checkPatternOverlap p1 p2).isSome = (checkPatternOverlap p2 p1).isSome := by
  unfold checkPatternOverlap
  by_cases h : p1 = p2
  · subst h; simp
  · have h' : ¬ p2 = p1 := fun e => h e.symm
    simp only [if_neg h, if_neg h']
    cases hx1 : extractExtension p1 <;> cases hx2 : extractExtension p2 <;>
      simp only []
    · simp [or_comm, h, h']
    · simp [or_comm, h, h']
    · simp [or_comm, h, h']
    · rename_i e1 e2
      by_cases he : e1 = e2
      · subst he
        by_cases hi1 : jsIncludes (dewildcard p1) (dewildcard p2) = true <;>
          by_cases hi2 : jsIncludes (dewildcard p2) (dewildcard p1) = true <;>
          simp [hi1, hi2, or_comm, h, h']
      · have he' : ¬ e2 = e1 := fun e => he e.symm
        rw [if_neg he, if_neg he']
        simp [or_comm, h, h']

/-! ## Claim C9 — parsed rules have non-empty filetype and pattern

The per-line parser splits a trimmed working line on whitespace; the
lemmas below show that the first and last tokens of such a split are
non-empty, which gives non-emptiness of both fields. -/

theorem dropWhile_head?_not (p : α → Bool) :
    ∀ (l : List α) (c : α), (l.dropWhile p).head? = some c → p c = false := by
  intro l
  induction l with
  | nil => intro c h; simp at h
  | cons x r ih =>
      intro c h
      by_cases hx : p x = true
      · rw [List.dropWhile_cons_of_pos hx] at h; exact ih c h
      · rw [List.dropWhile_cons_of_neg hx] at h
        simp only [List.head?_cons, Option.some.injEq] at h
        subst h
        exact Bool.eq_false_iff.mpr hx

theorem jsTrim_getLast?_not (s : List Char) (c : Char) :
    (jsTrim s).getLast? = some c → isWsChar c = false := by
  unfold jsTrim
  rw [List.getLast?_reverse]
  exact dropWhile_head?_not _ _ c

theorem jsTrim_head?_not (s : List Char) (c : Char) :
    (jsTrim s).head? = some c → isWsChar c = false := by
  unfold jsTrim
  rw [List.head?_reverse]
  intro h
  obtain ⟨t, ht⟩ :=
    @List.dropWhile_suffix Char ((List.dropWhile isWsChar s).reverse) isWsChar
  have h2 : ((List.dropWhile isWsChar s).reverse).getLast? = some c := by
    rw [← ht, List.getLast?_append, h]; rfl
  rw [List.getLast?_reverse] at h2
  exact dropWhile_head?_not _ _ c h2

theorem splitWsGo_ne_nil : ∀ (s acc : List Char) (b : Bool), splitWsGo s acc b ≠ [] := by
  intro s
  induction s with
  | nil => intro acc b; cases b <;> simp [splitWsGo]
  | cons c r ih =>
      intro acc b
      cases b <;> simp only [splitWsGo] <;> split
      · simp
      · exact ih _ false
      · exact ih _ true
      · exact ih _ false

theorem splitWsGo_first (s : List Char) :
    ∀ acc : List Char, ∃ t rest, splitWsGo s acc false = (acc.reverse ++ t) :: rest := by
  induction s with
  | nil => intro acc; exact ⟨[], [], by simp [splitWsGo]⟩
  | cons c r ih =>
      intro acc
      by_cases hc : isWsChar c = true
      · exact ⟨[], splitWsGo r [] true, by simp [splitWsGo, hc]⟩
      · obtain ⟨t, rest, h⟩ := ih (c :: acc)
        refine ⟨c :: t, rest, ?_⟩
        simp only [splitWsGo, if_neg hc, h, List.reverse_cons]
        simp

theorem splitWsGo_last_ne_nil :
    ∀ (s : List Char), s ≠ [] →
      (∀ c, s.getLast? = some c → isWsChar c = false) →
      ∀ (acc : List Char) (b : Bool) (t : List Char),
        (splitWsGo s acc b).getLast? = some t → t ≠ [] := by
  intro s
  induction s with
  | nil => intro h; exact absurd rfl h
  | cons c r ih =>
      intro _ hlast acc b t ht
      cases r with
      | nil =>
          have hc : isWsChar c = false := hlast c (by simp)
          cases b
          · rw [splitWsGo, if_neg (by simp [hc]), splitWsGo] at ht
            simp only [List.getLast?_singleton, Option.some.injEq] at ht
            subst ht; simp
          · rw [splitWsGo, if_neg (by simp [hc]), splitWsGo] at ht
            simp only [List.getLast?_singleton, Option.some.injEq] at ht
            subst ht; simp
      | cons d r2 =>
          have hlast2 : ∀ e, (d :: r2).getLast? = some e → isWsChar e = false := by
            intro e he
            exact hlast e (by rw [List.getLast?_cons_cons]; exact he)
          by_cases hc : isWsChar c = true
          · cases b
            · rw [splitWsGo, if_pos hc] at ht
              obtain ⟨x, xs, hx⟩ :=
                List.exists_cons_of_ne_nil (splitWsGo_ne_nil (d :: r2) [] true)
              rw [hx, List.getLast?_cons_cons] at ht
              exact ih (by simp) hlast2 [] true t (by rw [hx]; exact ht)
            · rw [splitWsGo, if_pos hc] at ht
              exact ih (by simp) hlast2 [] true t ht
          · cases b
            · rw [splitWsGo, if_neg hc] at ht
              exact ih (by simp) hlast2 _ false t ht
            · rw [splitWsGo, if_neg hc] at ht
              exact ih (by simp) hlast2 _ false t ht

/-- When splitting the trimmed string `jsTrim x` yields at least two
tokens, the first token is non-empty and the rejoined tail is a
non-empty pattern. -/
theorem jsSplitWs_two_tokens (x : List Char) (t p : List Char)
    (rest : List (List Char)) (h : jsSplitWs (jsTrim x) = t :: p :: rest) :
    t ≠ [] ∧ joinSpace (p :: rest) ≠ [] := by
  have hne : jsTrim x ≠ [] := by
    intro he
    rw [he] at h
    simp [jsSplitWs, splitWsGo] at h
  constructor
  · obtain ⟨c, r, hcr⟩ := List.exists_cons_of_ne_nil hne
    have hc : isWsChar c = false := jsTrim_head?_not x c (by rw [hcr]; rfl)
    have hstep : jsSplitWs (jsTrim x) = splitWsGo r [c] false := by
      rw [hcr, jsSplitWs, splitWsGo, if_neg (by simp [hc])]
    obtain ⟨t', rest', ht'⟩ := splitWsGo_first r [c]
    rw [hstep, ht'] at h
    injection h with hhd _
    rw [← hhd]
    simp
  · cases rest with
    | nil =>
        have hlastTok : (jsSplitWs (jsTrim x)).getLast? = some p := by
          rw [h]; rfl
        have hp : p ≠ [] :=
          splitWsGo_last_ne_nil (jsTrim x) hne
            (fun c hc => jsTrim_getLast?_not x c hc) [] false p hlastTok
        simpa [joinSpace] using hp
    | cons q rs => simp [joinSpace]

/-- Any successfully parsed typemap line yields a non-empty filetype and
a non-empty pattern. -/
theorem parseTypemapLine_fields (line ft pat cm : List Char) :
    parseTypemapLine line = some (ft, pat, cm) → ft ≠ [] ∧ pat ≠ [] := by
  intro h
  simp only [parseTypemapLine] at h
  by_cases h1 : jsTrim line = []
  · simp [h1] at h
  rw [if_neg h1] at h
  by_cases h2 : startsWithHH (jsTrim line) = true
  · simp [h2] at h
  rw [if_neg h2] at h
  rcases hidx : indexOfHH (jsTrim line) with _ | i <;> simp only [hidx] at h
  · rcases hsp : jsSplitWs (jsTrim line) with _ | ⟨t, _ | ⟨p, rest⟩⟩ <;>
      simp only [hsp] at h
    · exact absurd h (by simp)
    · exact absurd h (by simp)
    · simp only [Option.some.injEq, Prod.mk.injEq] at h
      obtain ⟨hft, hpat, -⟩ := h
      obtain ⟨h1', h2'⟩ := jsSplitWs_two_tokens line t p rest hsp
      exact ⟨hft ▸ h1', hpat ▸ h2'⟩
  · rcases hsp : jsSplitWs (jsTrim ((jsTrim line).take i)) with _ | ⟨t, _ | ⟨p, rest⟩⟩ <;>
      simp only [hsp] at h
    · exact absurd h (by simp)
    · exact absurd h (by simp)
    · simp only [Option.some.injEq, Prod.mk.injEq] at h
      obtain ⟨hft, hpat, -⟩ := h
      obtain ⟨h1', h2'⟩ := jsSplitWs_two_tokens ((jsTrim line).take i) t p rest hsp
      exact ⟨hft ▸ h1', hpat ▸ h2'⟩

theorem parseTypemapTextBlockGo_fields :
    ∀ (lines : List (List Char)) (ord : Nat) (r : Rule),
      r ∈ parseTypemapTextBlockGo lines ord → r.filetype ≠ [] ∧ r.pattern ≠ [] := by
  intro lines
  induction lines with
  | nil => intro ord r hr; simp [parseTypemapTextBlockGo] at hr
  | cons line ls ih =>
      intro ord r hr
      rcases hp : parseTypemapLine line with _ | t
      · rw [parseTypemapTextBlockGo, hp] at hr
        exact ih ord r hr
      · rw [parseTypemapTextBlockGo, hp] at hr
        rcases List.mem_cons.mp hr with hr | hr
        · subst hr
          exact parseTypemapLine_fields line t.1 t.2.1 t.2.2 hp
        · exact ih (ord + 1) r hr

theorem parseTypemapRecordGo_fields (cs : List (Option Int × List Char)) :
    ∀ (es : List TMEntry) (ord : Nat) (r : Rule),
      r ∈ parseTypemapRecordGo cs es ord → r.filetype ≠ [] ∧ r.pattern ≠ [] := by
  intro es
  induction es with
  | nil => intro ord r hr; simp [parseTypemapRecordGo] at hr
  | cons e es2 ih =>
      intro ord r hr
      rcases hp : parseTypemapLine e.value with _ | t
      · rw [parseTypemapRecordGo, hp] at hr
        exact ih ord r hr
      · rw [parseTypemapRecordGo, hp] at hr
        rcases List.mem_cons.mp hr with hr | hr
        · subst hr
          exact parseTypemapLine_fields e.value t.1 t.2.1 t.2.2 hp
        · exact ih (ord + 1) r hr

theorem parseTemplateContentGo_fields :
    ∀ (lines : List (List Char)) (inSec : Bool) (r : TRule),
      r ∈ parseTemplateContentGo lines inSec → r.filetype ≠ [] ∧ r.pattern ≠ [] := by
  intro lines
  induction lines with
  | nil => intro inSec r hr; simp [parseTemplateContentGo] at hr
  | cons line ls ih =>
      intro inSec r hr
      rw [parseTemplateContentGo] at hr
      by_cases hb : jsTrim line = []
      · rw [if_pos hb] at hr; exact ih inSec r hr
      rw [if_neg hb] at hr
      by_cases hh : (jsTrim line).take 1 = ['#']
      · rw [if_pos hh] at hr; exact ih inSec r hr
      rw [if_neg hh] at hr
      by_cases hm : jsTrim line = str "TypeMap:"
      · rw [if_pos hm] at hr; exact ih true r hr
      rw [if_neg hm] at hr
      by_cases hs : inSec = true
      · rw [hs] at hr
        simp only [Bool.not_true, Bool.false_eq_true, if_false] at hr
        rcases hp : parseTypemapLine line with _ | t
        · rw [hp] at hr; exact ih true r hr
        · rw [hp] at hr
          rcases List.mem_cons.mp hr with hr | hr
          · subst hr
            exact parseTypemapLine_fields line t.1 t.2.1 t.2.2 hp
          · exact ih true r hr
      · have : inSec = false := by simpa using hs
        rw [this] at hr
        simp only [Bool.not_false, if_true] at hr
        exact ih false r hr

/-- C9: every rule produced by the typemap parsers — the text-block
form, the indexed-record form, and the template parser — has a
non-empty filetype and a non-empty pattern (lines that would yield an
empty field are skipped by the two-token check), so a freshly parsed
rule list always satisfies the serializer's validity precondition. -/
theorem c9_parsed_rules_valid (text : List Char)
    (data : List (List (List Char × List Char))) (content : List Char) :
    (∀ r ∈ parseTypemapTextBlock text, r.filetype ≠ [] ∧ r.pattern ≠ []) ∧
    (∀ r ∈ parseTypemapRecord data, r.filetype ≠ [] ∧ r.pattern ≠ []) ∧
    (∀ r ∈ parseTemplateContent content, r.filetype ≠ [] ∧ r.pattern ≠ []) := by
  refine ⟨fun r hr => ?_, fun r hr => ?_, fun r hr => ?_⟩
  · exact parseTypemapTextBlockGo_fields (splitNl text) 1 r hr
  · rcases data with _ | ⟨record, rest⟩
    · simp [parseTypemapRecord] at hr
    · simp only [parseTypemapRecord] at hr
      exact parseTypemapRecordGo_fields _ _ 1 r hr
  · exact parseTemplateContentGo_fields (splitNl content) false r hr

/-- C9 (witness data): the rule parsed from the line `text //....txt`. -/
def c9sampleRule : Rule :=
  { id := 1, order := 1, filetype := str "text", pattern := str "//....txt",
    comment := [], originalLine := str "text //....txt", fromTemplate := false }

/-- C9 (witness data): the template rule parsed from a sample template. -/
def c9sampleTRule : TRule :=
  { filetype := str "binary", pattern := str "//....png", comment := [] }

/-- C9 (witness): the theorem applied to concrete parsed rules of the
text-block parser and the template parser. -/
theorem c9_parsed_rules_valid_witness :
    (c9sampleRule.filetype ≠ [] ∧ c9sampleRule.pattern ≠ []) ∧
    (c9sampleTRule.filetype ≠ [] ∧ c9sampleTRule.pattern ≠ []) := by
  constructor
  · exact (c9_parsed_rules_valid (str "text //....txt") [] []).1 _ (by decide)
  · exact (c9_parsed_rules_valid [] []
      (str "TypeMap:\nbinary //....png")).2.2 _ (by decide)

/-! ## Claim C3 — the order invariant under editing operations -/

/-- The order invariant: the multiset of `order` values is exactly
`{1, …, N}` for the list's length `N`. -/
def ordersPerm (l : List Rule) : Prop :=
  List.Perm (l.map (·.order)) (List.range' 1 l.length)

instance (l : List Rule) : Decidable (ordersPerm l) := by
  unfold ordersPerm; infer_instance

/-- One editing operation of the tool: add a rule, delete a rule, move a
rule up or down by one step, or merge a template. -/
inductive EditOp
  | add
  | del (rid : Nat)
  | up (rid : Nat)
  | down (rid : Nat)
  | merge (tmpl : List TRule)

/-- Apply one operation, threading the fresh-id seed. -/
def applyOp : EditOp → Nat × List Rule → Nat × List Rule
  | .add, (seed, rules) => (seed + 1, addNewRule seed rules)
  | .del rid, (seed, rules) => (seed, deleteRule rid rules)
  | .up rid, (seed, rules) => (seed, moveRuleUp rid rules)
  | .down rid, (seed, rules) => (seed, moveRuleDown rid rules)
  | .merge tmpl, (seed, rules) =>
      (seed + tmpl.length, (mergeTemplateRules rules tmpl seed).1)

/-- Apply a sequence of operations. -/
def applyOps (ops : List EditOp) (st : Nat × List Rule) : Nat × List Rule :=
  ops.foldl (fun st op => applyOp op st) st

theorem reorderRules_orders (l : List Rule) :
    (reorderRules l).map (·.order) = List.range' 1 l.length := by
  unfold reorderRules
  rw [List.map_map]
  rw [show ((fun r : Rule => r.order) ∘ fun p : Nat × Rule =>
      ({ p.2 with order := p.1 + 1 } : Rule)) = fun p : Nat × Rule => p.1 + 1
      from rfl]
  have h2 : ((sortByOrder l).enum.map fun p : Nat × Rule => p.1 + 1) =
      ((sortByOrder l).enum.map Prod.fst).map (· + 1) := by
    rw [List.map_map]; rfl
  have h3 : (sortByOrder l).length = l.length := (sortByOrder_perm l).length_eq
  rw [h2, List.enum_map_fst, h3, List.range'_eq_map_range]
  congr 1
  funext x
  omega

theorem reorderRules_length (l : List Rule) :
    (reorderRules l).length = l.length := by
  have := congrArg List.length (reorderRules_orders l)
  simpa using this

theorem ordersPerm_reorderRules (l : List Rule) : ordersPerm (reorderRules l) := by
  unfold ordersPerm
  rw [reorderRules_orders, reorderRules_length]

theorem ordersPerm_addNewRule (seed : Nat) (l : List Rule) (h : ordersPerm l) :
    ordersPerm (addNewRule seed l) := by
  unfold ordersPerm addNewRule at *
  rw [List.map_append, List.length_append]
  simp only [List.map_cons, List.map_nil, List.length_cons, List.length_nil]
  have : List.range' 1 (l.length + 1) = List.range' 1 l.length ++ [1 + l.length] := by
    simpa using @List.range'_concat 1 1 l.length
  rw [this]
  have hlen : (1 : Nat) + l.length = l.length + 1 := by omega
  exact (h.append_right _).trans (by rw [hlen])

/-- Inserting back the removed value: `x :: (t.set m y)` is a
permutation of `y :: t` when position `m` of `t` holds `x`. -/
theorem perm_set_cons (t : List Nat) :
    ∀ (m : Nat) (x y : Nat), t.get? m = some x →
      List.Perm (x :: t.set m y) (y :: t) := by
  induction t with
  | nil => intro m x y hm; simp at hm
  | cons a t' ih =>
      intro m x y hm
      cases m with
      | zero =>
          simp only [List.get?_cons_zero, Option.some.injEq] at hm
          subst hm
          simpa [List.set] using List.Perm.swap y a t'
      | succ k =>
          simp only [List.get?_cons_succ] at hm
          have step1 : List.Perm (x :: a :: t'.set k y) (a :: x :: t'.set k y) :=
            List.Perm.swap a x _
          have step2 : List.Perm (a :: x :: t'.set k y) (a :: y :: t') :=
            (ih k x y hm).cons a
          have step3 : List.Perm (a :: y :: t') (y :: a :: t') :=
            List.Perm.swap y a t'
          simpa [List.set] using (step1.trans step2).trans step3

/-- Swapping the contents of two distinct positions is a permutation. -/
theorem swap_contents_perm :
    ∀ (l : List Nat) (i j : Nat), i ≠ j → ∀ p q,
      l.get? i = some p → l.get? j = some q →
      List.Perm ((l.set i q).set j p) l := by
  intro l
  induction l with
  | nil => intro i j hij p q hi; simp at hi
  | cons a t ih =>
      intro i j hij p q hi hj
      cases i with
      | zero =>
          cases j with
          | zero => exact absurd rfl hij
          | succ m =>
              simp only [List.get?_cons_zero, Option.some.injEq] at hi
              simp only [List.get?_cons_succ] at hj
              subst hi
              simpa [List.set] using perm_set_cons t m q a hj
      | succ n =>
          cases j with
          | zero =>
              simp only [List.get?_cons_zero, Option.some.injEq] at hj
              simp only [List.get?_cons_succ] at hi
              subst hj
              simpa [List.set] using perm_set_cons t n p a hi
          | succ m =>
              simp only [List.get?_cons_succ] at hi hj
              have hnm : n ≠ m := fun e => hij (by rw [e])
              simpa [List.set] using (ih n m hnm p q hi hj).cons a


/-- The element found by `findIdx?` satisfies the predicate. -/
theorem findIdx?_get?_pred {l : List α} {p : α → Bool} {j : Nat} {x : α}
    (h : l.findIdx? p = some j) (hx : l.get? j = some x) : p x = true := by
  rw [List.findIdx?_eq_some_iff_findIdx_eq] at h
  obtain ⟨hlt, hidx⟩ := h
  have hg : l.get? j = some (l.get ⟨j, hlt⟩) := List.get?_eq_get hlt
  rw [hg] at hx
  have hx2 : l.get ⟨j, hlt⟩ = x := by injection hx
  subst hidx
  rw [← hx2]
  exact List.findIdx_get

theorem ordersPerm_set_swap (l : List Rule) (i j : Nat) (hij : i ≠ j)
    (cur prev : Rule) (hi : l.get? i = some cur) (hj : l.get? j = some prev)
    (h : ordersPerm l) :
    ordersPerm ((l.set i { cur with order := prev.order }).set j
      { prev with order := cur.order }) := by
  unfold ordersPerm at *
  have hmap : ((l.set i { cur with order := prev.order }).set j
      { prev with order := cur.order }).map (·.order) =
      ((l.map (·.order)).set i prev.order).set j cur.order := by
    rw [List.map_set, List.map_set]
  have hmi : (l.map (·.order)).get? i = some cur.order := by
    rw [List.get?_map, hi]; rfl
  have hmj : (l.map (·.order)).get? j = some prev.order := by
    rw [List.get?_map, hj]; rfl
  have hperm := swap_contents_perm (l.map (·.order)) i j hij cur.order prev.order hmi hmj
  rw [hmap]
  have hlen : ((l.set i { cur with order := prev.order }).set j
      { prev with order := cur.order }).length = l.length := by
    rw [List.length_set, List.length_set]
  rw [hlen]
  exact hperm.trans h

theorem ordersPerm_moveRuleUp (rid : Nat) (l : List Rule) (h : ordersPerm l) :
    ordersPerm (moveRuleUp rid l) := by
  unfold moveRuleUp
  rcases h1 : l.findIdx? (fun r => r.id = rid) with _ | i <;> simp only [h1]
  · exact h
  rcases h2 : l.get? i with _ | cur <;> simp only [h2]
  · exact h
  rcases h3 : l.findIdx? (fun r => r.order + 1 = cur.order) with _ | j <;> simp only [h3]
  · exact h
  rcases h4 : l.get? j with _ | prev <;> simp only [h4]
  · exact h
  have hpred : prev.order + 1 = cur.order := by
    have := findIdx?_get?_pred h3 h4
    exact of_decide_eq_true this
  have hij : i ≠ j := by
    intro he
    subst he
    rw [h2] at h4
    have : cur = prev := by injection h4
    subst this
    omega
  exact ordersPerm_set_swap l i j hij cur prev h2 h4 h

theorem ordersPerm_moveRuleDown (rid : Nat) (l : List Rule) (h : ordersPerm l) :
    ordersPerm (moveRuleDown rid l) := by
  unfold moveRuleDown
  rcases h1 : l.findIdx? (fun r => r.id = rid) with _ | i <;> simp only [h1]
  · exact h
  rcases h2 : l.get? i with _ | cur <;> simp only [h2]
  · exact h
  rcases h3 : l.findIdx? (fun r => r.order = cur.order + 1) with _ | j <;> simp only [h3]
  · exact h
  rcases h4 : l.get? j with _ | nxt <;> simp only [h4]
  · exact h
  have hpred : nxt.order = cur.order + 1 := by
    have := findIdx?_get?_pred h3 h4
    exact of_decide_eq_true this
  have hij : i ≠ j := by
    intro he
    subst he
    rw [h2] at h4
    have : cur = nxt := by injection h4
    subst this
    omega
  exact ordersPerm_set_swap l i j hij cur nxt h2 h4 h

theorem ordersPerm_deleteRule (rid : Nat) (l : List Rule) :
    ordersPerm (deleteRule rid l) :=
  ordersPerm_reorderRules _

theorem ordersPerm_mergeTemplateRules (l : List Rule) (tmpl : List TRule)
    (seed : Nat) : ordersPerm (mergeTemplateRules l tmpl seed).1 :=
  ordersPerm_reorderRules _

/-- C3: starting from a rule list whose order values are the permutation
`1..N`, any sequence of add-rule, delete-rule, move-up/move-down (order
swap) and template-merge operations leaves the order values exactly the
permutation `1..M` for the new length `M`. -/
theorem c3_order_invariant (ops : List EditOp) (seed : Nat) (l : List Rule)
    (h : ordersPerm l) : ordersPerm (applyOps ops (seed, l)).2 := by
  induction ops generalizing seed l with
  | nil => simpa [applyOps] using h
  | cons op rest ih =>
      have hstep : applyOps (op :: rest) (seed, l) =
          applyOps rest (applyOp op (seed, l)) := rfl
      rw [hstep]
      rcases op with _ | rid | rid | rid | tmpl
      · exact ih _ _ (ordersPerm_addNewRule seed l h)
      · exact ih _ _ (ordersPerm_deleteRule rid l)
      · exact ih _ _ (ordersPerm_moveRuleUp rid l h)
      · exact ih _ _ (ordersPerm_moveRuleDown rid l h)
      · exact ih _ _ (ordersPerm_mergeTemplateRules l tmpl seed)

/-- C3 (witness): the invariant theorem applied to a concrete starting
list and operation sequence (add two rules, move one up, merge one
template rule, delete one). -/
theorem c3_order_invariant_witness :
    ordersPerm (applyOps
      [EditOp.add, EditOp.add, EditOp.up 11,
        EditOp.merge [{ filetype := str "text", pattern := str "//....txt",
                        comment := [] }],
        EditOp.del 10]
      (10, [])).2 :=
  c3_order_invariant _ 10 [] (by decide)

/-! ## Claim C8 (amended) — `testPath` returns the last match in list order -/

theorem getLast?_mem' {l : List α} {a : α} (h : l.getLast? = some a) : a ∈ l := by
  have hne : l ≠ [] := by rintro rfl; simp at h
  rw [List.getLast?_eq_getLast l hne] at h
  injection h with h2
  rw [← h2]
  exact List.getLast_mem hne

theorem testPathLoop_eq (path : List Char) :
    ∀ (rules : List Rule) (acc : Option Rule),
      testPathLoop path rules acc =
        ((rules.filter fun r => pathMatchesPattern path r.pattern).getLast?).or acc := by
  intro rules
  induction rules with
  | nil => intro acc; rfl
  | cons r rs ih =>
      intro acc
      rw [testPathLoop]
      by_cases hm : pathMatchesPattern path r.pattern = true
      · rw [if_pos hm, ih]
        have hfc : (List.filter (fun r => pathMatchesPattern path r.pattern) (r :: rs)) =
            r :: List.filter (fun r => pathMatchesPattern path r.pattern) rs := by
          simp [List.filter_cons, hm]
        rw [hfc]
        rcases hfl : List.filter (fun r => pathMatchesPattern path r.pattern) rs
          with _ | ⟨x, xs⟩ <;> rw [hfl]
        · simp
        · rw [List.getLast?_cons_cons]
          have h5 : (x :: xs).getLast?.isSome := by
            rw [List.getLast?_isSome]; simp
          obtain ⟨y, hy⟩ := Option.isSome_iff_exists.mp h5
          rw [hy]
          simp [Option.or]
      · rw [if_neg hm, ih]
        have hfc : (List.filter (fun r => pathMatchesPattern path r.pattern) (r :: rs)) =
            List.filter (fun r => pathMatchesPattern path r.pattern) rs := by
          simp [List.filter_cons, hm]
        rw [hfc]

/-- If a list is sorted by ascending order, the last element has the
maximal order. -/
theorem pairwise_le_getLast? :
    ∀ (l : List Rule), l.Pairwise (fun a b => a.order ≤ b.order) →
      ∀ r, l.getLast? = some r → ∀ s ∈ l, s.order ≤ r.order := by
  intro l
  induction l with
  | nil => intro _ r hr; simp at hr
  | cons a t ih =>
      intro hp r hr s hs
      rcases List.mem_cons.mp hs with rfl | hs2
      · cases t with
        | nil =>
            simp only [List.getLast?_singleton, Option.some.injEq] at hr
            subst hr
            exact Nat.le_refl _
        | cons b t2 =>
            rw [List.getLast?_cons_cons] at hr
            exact (List.pairwise_cons.mp hp).1 r (getLast?_mem' hr)
      · cases t with
        | nil => simp at hs2
        | cons b t2 =>
            rw [List.getLast?_cons_cons] at hr
            exact ih (List.pairwise_cons.mp hp).2 r hr s hs2

/-- C8 (amended): for a non-empty (after trimming) test path, `testPath`
reports the filetype and order of the **last rule in list order** whose
pattern matches (per `pathMatchesPattern`), or no-match if none matches;
when the rule list is sorted by ascending `order` — the state the tool
maintains — this last match is a rule of maximal order among all
matching rules. -/
theorem c8_amended_testPath_last_match (input : List Char) (rules : List Rule) :
    (jsTrim input ≠ [] →
      testPath input rules =
        (match (rules.filter fun r =>
            pathMatchesPattern (jsTrim input) r.pattern).getLast? with
         | some r => TestOutcome.matched r.filetype r.order
         | none => TestOutcome.noMatch)) ∧
    (rules.Pairwise (fun a b => a.order ≤ b.order) →
      ∀ r, (rules.filter fun r =>
          pathMatchesPattern (jsTrim input) r.pattern).getLast? = some r →
        ∀ s ∈ rules, pathMatchesPattern (jsTrim input) s.pattern = true →
          s.order ≤ r.order) := by
  constructor
  · intro hne
    rw [testPath]
    simp only [if_neg hne]
    rw [testPathLoop_eq, Option.or_none]
  · intro hp r hr s hs hsm
    exact pairwise_le_getLast? _ (hp.filter _) r hr s
      (List.mem_filter.mpr ⟨hs, hsm⟩)

/-- C8 (amended, witness): the theorem applied at the path `a,i` and a
concrete sorted one-rule list. -/
theorem c8_amended_witness :
    testPath (str "a,i") [c8ruleLow] = TestOutcome.matched (str "text") 1 ∧
    c8ruleLow.order ≤ c8ruleLow.order := by
  have h := c8_amended_testPath_last_match (str "a,i") [c8ruleLow]
  constructor
  · exact (h.1 (by decide)).trans (by decide)
  · exact h.2 (by decide) c8ruleLow (by decide) c8ruleLow (by decide) (by decide)

/-! ## Claim C6 — the merge report -/

/-- C6: an existing rule used by the counterexample (first list
position, same pattern as the incoming rule but different filetype). -/
def c6ex1 : Rule :=
  { id := 1, order := 1, filetype := str "text", pattern := str "//p",
    comment := [], originalLine := [], fromTemplate := false }

/-- C6: an existing rule with the same pattern *and* filetype as the
incoming rule, but at the second list position. -/
def c6ex2 : Rule :=
  { id := 2, order := 2, filetype := str "binary", pattern := str "//p",
    comment := [], originalLine := [], fromTemplate := false }

/-- C6: the incoming template rule of the counterexample. -/
def c6in : TRule :=
  { filetype := str "binary", pattern := str "//p", comment := [] }

/-- C6 (counterexample): with existing rules `[(text, //p), (binary, //p)]`
and the incoming rule `(binary, //p)`, an existing rule with identical
pattern and identical filetype exists (`c6ex2`), so the claim requires
the incoming rule to be recorded as skipped — but the merge looks up
only the *first* pattern match (`text`) and records a conflict
instead. -/
theorem c6_counterexample :
    c6ex2.pattern = c6in.pattern ∧ c6ex2.filetype = c6in.filetype ∧
    (mergeTemplateRules [c6ex1, c6ex2] [c6in] 10).2.skipped = [] ∧
    (mergeTemplateRules [c6ex1, c6ex2] [c6in] 10).2.added = [] ∧
    (mergeTemplateRules [c6ex1, c6ex2] [c6in] 10).2.conflicts =
      [(c6in, str "text")] := by
  decide

theorem mergeGo_counts :
    ∀ (tmpl : List TRule) (rules : List Rule) (seed : Nat),
      (mergeGo tmpl rules seed).2.added.length +
        (mergeGo tmpl rules seed).2.skipped.length +
        (mergeGo tmpl rules seed).2.conflicts.length = tmpl.length := by
  intro tmpl
  induction tmpl with
  | nil => intro rules seed; rfl
  | cons t ts ih =>
      intro rules seed
      rcases hf : findExistingRule t.pattern rules with _ | ex
      · have hih := ih (rules ++ [templateNewRule seed rules.length t]) (seed + 1)
        simp only [mergeGo, hf, List.length_cons]
        omega
      · by_cases hft : ex.filetype = t.filetype
        · have hih := ih rules seed
          simp only [mergeGo, hf, if_pos hft, List.length_cons]
          omega
        · have hih := ih (rules ++ [templateNewRule seed rules.length t]) (seed + 1)
          simp only [mergeGo, hf, if_neg hft, List.length_cons]
          omega

/-- Every report entry stems from the incoming template list. -/
theorem mergeGo_report_mem :
    ∀ (tmpl : List TRule) (rules : List Rule) (seed : Nat),
      (∀ t ∈ (mergeGo tmpl rules seed).2.added, t ∈ tmpl) ∧
      (∀ t ∈ (mergeGo tmpl rules seed).2.skipped, t ∈ tmpl) ∧
      (∀ pr ∈ (mergeGo tmpl rules seed).2.conflicts, pr.1 ∈ tmpl) := by
  intro tmpl
  induction tmpl with
  | nil =>
      intro rules seed
      refine ⟨?_, ?_, ?_⟩ <;> intro x hx <;> simp [mergeGo] at hx
  | cons t ts ih =>
      intro rules seed
      rcases hf : findExistingRule t.pattern rules with _ | ex
      · obtain ⟨ha, hs, hc⟩ := ih (rules ++ [templateNewRule seed rules.length t]) (seed + 1)
        simp only [mergeGo, hf]
        refine ⟨?_, ?_, ?_⟩
        · intro x hx
          rcases List.mem_cons.mp hx with rfl | hx2
          · exact List.mem_cons_self _ _
          · exact List.mem_cons_of_mem _ (ha x hx2)
        · intro x hx; exact List.mem_cons_of_mem _ (hs x hx)
        · intro pr hpr; exact List.mem_cons_of_mem _ (hc pr hpr)
      · by_cases hft : ex.filetype = t.filetype
        · obtain ⟨ha, hs, hc⟩ := ih rules seed
          simp only [mergeGo, hf, if_pos hft]
          refine ⟨?_, ?_, ?_⟩
          · intro x hx; exact List.mem_cons_of_mem _ (ha x hx)
          · intro x hx
            rcases List.mem_cons.mp hx with rfl | hx2
            · exact List.mem_cons_self _ _
            · exact List.mem_cons_of_mem _ (hs x hx2)
          · intro pr hpr; exact List.mem_cons_of_mem _ (hc pr hpr)
        · obtain ⟨ha, hs, hc⟩ :=
            ih (rules ++ [templateNewRule seed rules.length t]) (seed + 1)
          simp only [mergeGo, hf, if_neg hft]
          refine ⟨?_, ?_, ?_⟩
          · intro x hx; exact List.mem_cons_of_mem _ (ha x hx)
          · intro x hx; exact List.mem_cons_of_mem _ (hs x hx)
          · intro pr hpr
            rcases List.mem_cons.mp hpr with rfl | hpr2
            · exact List.mem_cons_self _ _
            · exact List.mem_cons_of_mem _ (hc pr hpr2)

/-- In a list of rules with pairwise distinct patterns, a pattern
determines the rule. -/
theorem pairwise_pattern_unique (l : List Rule)
    (h : l.Pairwise (fun a b => a.pattern ≠ b.pattern)) :
    ∀ r1 ∈ l, ∀ r2 ∈ l, r1.pattern = r2.pattern → r1 = r2 := by
  induction l with
  | nil => intro r1 h1; simp at h1
  | cons a t ih =>
      intro r1 h1 r2 h2 hp
      obtain ⟨hhd, htl⟩ := List.pairwise_cons.mp h
      rcases List.mem_cons.mp h1 with rfl | h1b
      · rcases List.mem_cons.mp h2 with rfl | h2b
        · rfl
        · exact absurd hp (hhd r2 h2b)
      · rcases List.mem_cons.mp h2 with rfl | h2b
        · exact absurd hp.symm (hhd r1 h1b)
        · exact ih htl r1 h1b r2 h2b hp

/-- Looking up a pattern in the current list sees only the pre-existing
rules, as long as every appended rule's pattern differs from the looked-up
one. -/
theorem findExistingRule_append (pat : List Char) (ex news : List Rule)
    (hnews : ∀ n ∈ news, n.pattern ≠ pat) :
    findExistingRule pat (ex ++ news) = findExistingRule pat ex := by
  unfold findExistingRule
  rw [List.find?_append]
  have hnil : news.find? (fun r => r.pattern = pat) = none := by
    rw [List.find?_eq_none]
    intro n hn
    simp only [decide_eq_true_eq]
    exact hnews n hn
  rw [hnil, Option.or_none]

/-- The merge loop classifies each incoming rule against a lookup in the
pre-existing part of the list, provided the incoming patterns are
pairwise distinct and no already-appended rule shares a pattern with a
pending incoming rule. -/
theorem mergeGo_classify :
    ∀ (tmpl : List TRule),
      tmpl.Pairwise (fun a b => a.pattern ≠ b.pattern) →
      ∀ (ex news : List Rule) (seed : Nat),
        (∀ n ∈ news, ∀ t ∈ tmpl, n.pattern ≠ t.pattern) →
        ∀ t ∈ tmpl,
          (t ∈ (mergeGo tmpl (ex ++ news) seed).2.skipped ↔
            ∃ r, findExistingRule t.pattern ex = some r ∧
              r.filetype = t.filetype) ∧
          ((∃ ft, (t, ft) ∈ (mergeGo tmpl (ex ++ news) seed).2.conflicts) ↔
            ∃ r, findExistingRule t.pattern ex = some r ∧
              r.filetype ≠ t.filetype) ∧
          (t ∈ (mergeGo tmpl (ex ++ news) seed).2.added ↔
            findExistingRule t.pattern ex = none) := by
  intro tmpl
  induction tmpl with
  | nil => intro _ ex news seed _ t ht; simp at ht
  | cons t0 ts ih =>
      intro hpw ex news seed hnews t ht
      obtain ⟨hhd, htlpw⟩ := List.pairwise_cons.mp hpw
      have ht0ts : t0 ∉ ts := fun hmem => (hhd t0 hmem) rfl
      have hfind : findExistingRule t0.pattern (ex ++ news) =
          findExistingRule t0.pattern ex :=
        findExistingRule_append t0.pattern ex news
          (fun n hn => hnews n hn t0 (List.mem_cons_self _ _))
      rcases hf : findExistingRule t0.pattern ex with _ | exr
      · -- added branch
        have hnews' : ∀ n ∈ news ++ [templateNewRule seed (ex ++ news).length t0],
            ∀ t2 ∈ ts, n.pattern ≠ t2.pattern := by
          intro n hn t2 ht2
          rcases List.mem_append.mp hn with hn2 | hn2
          · exact hnews n hn2 t2 (List.mem_cons_of_mem _ ht2)
          · have : n = templateNewRule seed (ex ++ news).length t0 := by
              simpa using hn2
            subst this
            exact hhd t2 ht2
        have hrec := ih htlpw ex
          (news ++ [templateNewRule seed (ex ++ news).length t0]) (seed + 1) hnews'
        have hmem := mergeGo_report_mem ts
          (ex ++ (news ++ [templateNewRule seed (ex ++ news).length t0])) (seed + 1)
        simp only [mergeGo, hfind.trans hf, ← List.append_assoc] at *
        rcases List.mem_cons.mp ht with rfl | hts
        · refine ⟨?_, ?_, ?_⟩
          · constructor
            · intro hsk
              exact absurd (hmem.2.1 t hsk) ht0ts
            · rintro ⟨r, hr, -⟩
              rw [hf] at hr
              exact absurd hr (by simp)
          · constructor
            · rintro ⟨ft, hft⟩
              exact absurd (hmem.2.2 (t, ft) hft) ht0ts
            · rintro ⟨r, hr, -⟩
              rw [hf] at hr
              exact absurd hr (by simp)
          · simp [hf]
        · have hne : t ≠ t0 := fun he => ht0ts (he ▸ hts)
          have := hrec t hts
          refine ⟨this.1, this.2.1, ?_⟩
          rw [← this.2.2]
          simp [List.mem_cons, hne]
      · by_cases hft : exr.filetype = t0.filetype
        · -- skipped branch
          have hnews' : ∀ n ∈ news, ∀ t2 ∈ ts, n.pattern ≠ t2.pattern :=
            fun n hn t2 ht2 => hnews n hn t2 (List.mem_cons_of_mem _ ht2)
          have hrec := ih htlpw ex news seed hnews'
          have hmem := mergeGo_report_mem ts (ex ++ news) seed
          simp only [mergeGo, hfind.trans hf, if_pos hft] at *
          rcases List.mem_cons.mp ht with rfl | hts
          · refine ⟨?_, ?_, ?_⟩
            · simp only [List.mem_cons, true_or, true_iff]
              exact ⟨exr, hf, hft⟩
            · constructor
              · rintro ⟨ft, hft2⟩
                exact absurd (hmem.2.2 (t, ft) hft2) ht0ts
              · rintro ⟨r, hr, hrne⟩
                rw [hf] at hr
                have : exr = r := by injection hr
                exact absurd (this ▸ hft) hrne
            · constructor
              · intro hadd
                exact absurd (hmem.1 t hadd) ht0ts
              · intro hnone
                rw [hf] at hnone
                exact absurd hnone (by simp)
          · have hne : t ≠ t0 := fun he => ht0ts (he ▸ hts)
            have := hrec t hts
            refine ⟨?_, this.2.1, this.2.2⟩
            rw [← this.1]
            simp [List.mem_cons, hne]
        · -- conflict branch
          have hnews' : ∀ n ∈ news ++ [templateNewRule seed (ex ++ news).length t0],
              ∀ t2 ∈ ts, n.pattern ≠ t2.pattern := by
            intro n hn t2 ht2
            rcases List.mem_append.mp hn with hn2 | hn2
            · exact hnews n hn2 t2 (List.mem_cons_of_mem _ ht2)
            · have : n = templateNewRule seed (ex ++ news).length t0 := by
                simpa using hn2
              subst this
              exact hhd t2 ht2
          have hrec := ih htlpw ex
            (news ++ [templateNewRule seed (ex ++ news).length t0]) (seed + 1) hnews'
          have hmem := mergeGo_report_mem ts
            (ex ++ (news ++ [templateNewRule seed (ex ++ news).length t0])) (seed + 1)
          simp only [mergeGo, hfind.trans hf, if_neg hft, ← List.append_assoc] at *
          rcases List.mem_cons.mp ht with rfl | hts
          · refine ⟨?_, ?_, ?_⟩
            · constructor
              · intro hsk
                exact absurd (hmem.2.1 t hsk) ht0ts
              · rintro ⟨r, hr, hre⟩
                rw [hf] at hr
                have : exr = r := by injection hr
                exact absurd (by rw [this]; exact hre) hft
            · constructor
              · intro _
                exact ⟨exr, hf, hft⟩
              · intro _
                exact ⟨exr.filetype, List.mem_cons_self _ _⟩
            · constructor
              · intro hadd
                exact absurd (hmem.1 t hadd) ht0ts
              · intro hnone
                rw [hf] at hnone
                exact absurd hnone (by simp)
          · have hne : t ≠ t0 := fun he => ht0ts (he ▸ hts)
            have := hrec t hts
            refine ⟨this.1, ?_, this.2.2⟩
            rw [← this.2.1]
            constructor
            · rintro ⟨ft, hftm⟩
              rcases List.mem_cons.mp hftm with heq | hin
              · exact absurd (congrArg Prod.fst heq) hne
              · exact ⟨ft, hin⟩
            · rintro ⟨ft, hin⟩
              exact ⟨ft, List.mem_cons_of_mem _ hin⟩

/-- Under pairwise-distinct patterns, the first-match lookup finds
exactly the unique rule with the looked-up pattern. -/
theorem findExistingRule_unique_iff (ex : List Rule)
    (hex : ex.Pairwise (fun a b => a.pattern ≠ b.pattern)) (pat : List Char)
    (r : Rule) :
    findExistingRule pat ex = some r ↔ (r ∈ ex ∧ r.pattern = pat) := by
  constructor
  · intro h
    rw [findExistingRule] at h
    have h3 := List.find?_some h
    simp only [decide_eq_true_eq] at h3
    exact ⟨List.mem_of_find?_eq_some h, h3⟩
  · rintro ⟨hmem, hpat⟩
    rcases hfind : findExistingRule pat ex with _ | r2
    · rw [findExistingRule, List.find?_eq_none] at hfind
      have := hfind r hmem
      simp only [decide_eq_true_eq] at this
      exact absurd hpat this
    · rw [findExistingRule] at hfind
      have h1 : r2 ∈ ex := List.mem_of_find?_eq_some hfind
      have h2 := List.find?_some hfind
      simp only [decide_eq_true_eq] at h2
      have : r2 = r :=
        pairwise_pattern_unique ex hex r2 h1 r hmem (h2.trans hpat.symm)
      rw [this]

/-- C6 (amended): every incoming rule is recorded in exactly one of the
report's lists, so `added + skipped + conflicts` always equals the
number of incoming rules; and provided the incoming rules' patterns are
pairwise distinct and the pre-existing list holds at most one rule per
pattern, the classification is exactly the claimed one against the
pre-existing list — skipped iff an existing rule has identical pattern
and filetype, conflict iff an existing rule has identical pattern and a
different filetype, added iff no existing rule has the pattern.
(Without those hypotheses the decision is made against the *first*
pattern match in the progressively extended list, see the
counterexample.) -/
theorem c6_amended_merge_report (ex : List Rule) (tmpl : List TRule)
    (seed : Nat) :
    ((mergeTemplateRules ex tmpl seed).2.added.length +
      (mergeTemplateRules ex tmpl seed).2.skipped.length +
      (mergeTemplateRules ex tmpl seed).2.conflicts.length = tmpl.length) ∧
    (tmpl.Pairwise (fun a b => a.pattern ≠ b.pattern) →
      ex.Pairwise (fun a b => a.pattern ≠ b.pattern) →
      ∀ t ∈ tmpl,
        (t ∈ (mergeTemplateRules ex tmpl seed).2.skipped ↔
          ∃ r ∈ ex, r.pattern = t.pattern ∧ r.filetype = t.filetype) ∧
        ((∃ ft, (t, ft) ∈ (mergeTemplateRules ex tmpl seed).2.conflicts) ↔
          ∃ r ∈ ex, r.pattern = t.pattern ∧ r.filetype ≠ t.filetype) ∧
        (t ∈ (mergeTemplateRules ex tmpl seed).2.added ↔
          ∀ r ∈ ex, r.pattern ≠ t.pattern)) := by
  have hrep : (mergeTemplateRules ex tmpl seed).2 = (mergeGo tmpl ex seed).2 := rfl
  constructor
  · rw [hrep]
    exact mergeGo_counts tmpl ex seed
  · intro hpt hpe t ht
    have hcls := mergeGo_classify tmpl hpt ex [] seed (by intro n hn; simp at hn) t ht
    rw [List.append_nil] at hcls
    rw [hrep]
    obtain ⟨hsk, hcf, had⟩ := hcls
    refine ⟨?_, ?_, ?_⟩
    · rw [hsk]
      constructor
      · rintro ⟨r, hr, hft⟩
        have h2 := (findExistingRule_unique_iff ex hpe t.pattern r).mp hr
        exact ⟨r, h2.1, h2.2, hft⟩
      · rintro ⟨r, hmem, hpat, hft⟩
        exact ⟨r, (findExistingRule_unique_iff ex hpe t.pattern r).mpr
          ⟨hmem, hpat⟩, hft⟩
    · rw [hcf]
      constructor
      · rintro ⟨r, hr, hft⟩
        have h2 := (findExistingRule_unique_iff ex hpe t.pattern r).mp hr
        exact ⟨r, h2.1, h2.2, hft⟩
      · rintro ⟨r, hmem, hpat, hft⟩
        exact ⟨r, (findExistingRule_unique_iff ex hpe t.pattern r).mpr
          ⟨hmem, hpat⟩, hft⟩
    · rw [had, findExistingRule, List.find?_eq_none]
      simp only [decide_eq_true_eq]

/-- C6 (amended, witness): the theorem at a concrete one-rule merge with
a filetype conflict. -/
theorem c6_amended_witness :
    ((mergeTemplateRules [c6ex1] [c6in] 10).2.added.length +
      (mergeTemplateRules [c6ex1] [c6in] 10).2.skipped.length +
      (mergeTemplateRules [c6ex1] [c6in] 10).2.conflicts.length = 1) ∧
    ((∃ ft, (c6in, ft) ∈ (mergeTemplateRules [c6ex1] [c6in] 10).2.conflicts) ↔
      ∃ r ∈ [c6ex1], r.pattern = c6in.pattern ∧ r.filetype ≠ c6in.filetype) := by
  have h := c6_amended_merge_report [c6ex1] [c6in] 10
  exact ⟨h.1, (h.2 (by simp) (by simp) c6in (by simp)).2.1⟩

/-! ## Claim C7 — the merge never deletes or mutates pre-existing rules

The canonical state of the tool — maintained by the parsers and by
`reorderRules` after every mutation — has the rule at list position `i`
carrying `order = i + 1`.  In that state the merge is literally an
append: the sort inside the final renormalization is the identity and
the renumbering rewrites each order with its current value. -/

/-- The canonical state: position `i` holds order `i + 1`. -/
def canonicalOrders (l : List Rule) : Prop :=
  ∀ i (h : i < l.length), (l.get ⟨i, h⟩).order = i + 1

theorem canonicalOrders_append_one (l : List Rule) (r : Rule)
    (hc : canonicalOrders l) (hr : r.order = l.length + 1) :
    canonicalOrders (l ++ [r]) := by
  intro i h
  rw [List.length_append] at h
  by_cases hi : i < l.length
  · have : (l ++ [r]).get ⟨i, by rw [List.length_append]; omega⟩ =
        l.get ⟨i, hi⟩ := List.get_append i hi
    rw [this]
    exact hc i hi
  · have hieq : i = l.length := by simp at h; omega
    subst hieq
    have : (l ++ [r]).get ⟨l.length, by rw [List.length_append]; simp⟩ = r := by
      simp
    rw [this, hr]

/-- The merge loop only appends: the resulting list is the input list
followed by fresh `fromTemplate` rules, and canonicity is preserved. -/
theorem mergeGo_canonical_append :
    ∀ (tmpl : List TRule) (rules : List Rule) (seed : Nat),
      canonicalOrders rules →
      ∃ news, (mergeGo tmpl rules seed).1 = rules ++ news ∧
        canonicalOrders (rules ++ news) ∧
        ∀ n ∈ news, n.fromTemplate = true := by
  intro tmpl
  induction tmpl with
  | nil =>
      intro rules seed hc
      exact ⟨[], by simp [mergeGo], by simpa using hc, by simp⟩
  | cons t ts ih =>
      intro rules seed hc
      rcases hf : findExistingRule t.pattern rules with _ | ex
      · have hc' : canonicalOrders (rules ++ [templateNewRule seed rules.length t]) :=
          canonicalOrders_append_one rules _ hc rfl
        obtain ⟨news', heq, hcan, hft⟩ :=
          ih (rules ++ [templateNewRule seed rules.length t]) (seed + 1) hc'
        refine ⟨templateNewRule seed rules.length t :: news', ?_, ?_, ?_⟩
        · simp only [mergeGo, hf]
          rw [heq, List.append_assoc]
          rfl
        · rw [show rules ++ templateNewRule seed rules.length t :: news' =
            (rules ++ [templateNewRule seed rules.length t]) ++ news' by simp]
          exact hcan
        · intro n hn
          rcases List.mem_cons.mp hn with rfl | hn2
          · rfl
          · exact hft n hn2
      · by_cases hfteq : ex.filetype = t.filetype
        · obtain ⟨news', heq, hcan, hft⟩ := ih rules seed hc
          refine ⟨news', ?_, hcan, hft⟩
          simp only [mergeGo, hf, if_pos hfteq]
          exact heq
        · have hc' : canonicalOrders (rules ++ [templateNewRule seed rules.length t]) :=
            canonicalOrders_append_one rules _ hc rfl
          obtain ⟨news', heq, hcan, hft⟩ :=
            ih (rules ++ [templateNewRule seed rules.length t]) (seed + 1) hc'
          refine ⟨templateNewRule seed rules.length t :: news', ?_, ?_, ?_⟩
          · simp only [mergeGo, hf, if_neg hfteq]
            rw [heq, List.append_assoc]
            rfl
          · rw [show rules ++ templateNewRule seed rules.length t :: news' =
              (rules ++ [templateNewRule seed rules.length t]) ++ news' by simp]
            exact hcan
          · intro n hn
            rcases List.mem_cons.mp hn with rfl | hn2
            · rfl
            · exact hft n hn2

/-- Sorting a list that is already sorted (as a `Pairwise` bound) by the
stable insertion sort is the identity. -/
theorem sortBy'_sorted_id (le : α → α → Bool) :
    ∀ (l : List α), l.Pairwise (fun a b => le a b = true) → sortBy' le l = l := by
  intro l
  induction l with
  | nil => intro _; rfl
  | cons x xs ih =>
      intro hp
      obtain ⟨hhd, htl⟩ := List.pairwise_cons.mp hp
      have hstep : sortBy' le (x :: xs) = insertBy le x (sortBy' le xs) := rfl
      rw [hstep, ih htl]
      cases xs with
      | nil => rfl
      | cons y ys =>
          rw [insertBy, if_pos (hhd y (List.mem_cons_self _ _))]

theorem canonicalOrders_pairwise (l : List Rule) (hc : canonicalOrders l) :
    l.Pairwise (fun a b => (decide (a.order ≤ b.order)) = true) := by
  rw [List.pairwise_iff_get]
  intro i j hij
  simp only [decide_eq_true_eq]
  rw [hc i.1 i.2, hc j.1 j.2]
  omega

/-- Renumbering an already-canonical list rewrites every order with its
current value. -/
theorem enumFrom_map_order_id :
    ∀ (l : List Rule) (k : Nat),
      (∀ i (h : i < l.length), (l.get ⟨i, h⟩).order = k + i + 1) →
      (l.enumFrom k).map (fun p => { p.2 with order := p.1 + 1 }) = l := by
  intro l
  induction l with
  | nil => intro k _; rfl
  | cons a t ih =>
      intro k hc
      rw [List.enumFrom_cons, List.map_cons]
      have ha : a.order = k + 1 := by simpa using hc 0 (by simp)
      have h1 : ({ a with order := k + 1 } : Rule) = a := by
        rw [← ha]
      rw [h1, ih (k + 1) fun i h => by
        have := hc (i + 1) (by simpa using Nat.succ_lt_succ h)
        simpa [Nat.add_assoc, Nat.add_comm, Nat.add_left_comm] using this]

/-- On a canonical list, `reorderRules` is the identity. -/
theorem reorderRules_canonical_id (l : List Rule) (hc : canonicalOrders l) :
    reorderRules l = l := by
  unfold reorderRules
  have hsort : sortByOrder l = l :=
    sortBy'_sorted_id _ l (canonicalOrders_pairwise l hc)
  rw [hsort]
  have : l.enum = l.enumFrom 0 := rfl
  rw [this]
  exact enumFrom_map_order_id l 0 (fun i h => by simpa using hc i h)

/-- C7: when the pre-existing rule list is in the canonical state
(position `i` holds order `i + 1`, the state maintained after every
mutation), merging a template changes nothing about the pre-existing
rules: the result is exactly the pre-existing list followed by the
template-derived rules — so no pre-existing rule is deleted, none has
its id, filetype, pattern or comment changed, and their relative order
is preserved. -/
theorem c7_merge_frame (ex : List Rule) (tmpl : List TRule) (seed : Nat)
    (hc : ∀ i (h : i < ex.length), (ex.get ⟨i, h⟩).order = i + 1) :
    (mergeTemplateRules ex tmpl seed).1.take ex.length = ex ∧
    ∀ r ∈ (mergeTemplateRules ex tmpl seed).1.drop ex.length,
      r.fromTemplate = true := by
  obtain ⟨news, heq, hcan, hft⟩ := mergeGo_canonical_append tmpl ex seed hc
  have hres : (mergeTemplateRules ex tmpl seed).1 = ex ++ news := by
    show reorderRules (mergeGo tmpl ex seed).1 = _
    rw [heq, reorderRules_canonical_id _ hcan]
  rw [hres]
  exact ⟨List.take_left ex news,
    fun r hr => hft r (by rwa [List.drop_left] at hr)⟩

/-- C7 (counterexample data): a pre-existing rule listed first but
carrying the larger order (the state left behind by a move-up). -/
def c7outOfOrderA : Rule :=
  { id := 1, order := 2, filetype := str "text", pattern := str "//....txt",
    comment := [], originalLine := [], fromTemplate := false }

/-- C7 (counterexample data): a pre-existing rule listed second but
carrying the smaller order. -/
def c7outOfOrderB : Rule :=
  { id := 2, order := 1, filetype := str "binary", pattern := str "//....png",
    comment := [], originalLine := [], fromTemplate := false }

/-- C7 (counterexample): merging even an *empty* template into an
existing list whose list positions are not sorted by order (a state
reachable by a move-up, which swaps order values without re-sorting the
array) reorders the pre-existing rules: the final renormalization sorts
them, so they do not survive in their original relative list order. -/
theorem c7_counterexample :
    (mergeTemplateRules [c7outOfOrderA, c7outOfOrderB] [] 0).1 =
      [c7outOfOrderB, c7outOfOrderA] ∧
    c7outOfOrderA ≠ c7outOfOrderB := by
  decide

/-- C7 (witness data): a canonical pre-existing rule. -/
def c7ex : Rule :=
  { id := 1, order := 1, filetype := str "text", pattern := str "//....txt",
    comment := [], originalLine := [], fromTemplate := false }

/-- C7 (witness data): an incoming template rule with a fresh pattern. -/
def c7t : TRule :=
  { filetype := str "binary", pattern := str "//....png", comment := [] }

/-- C7 (witness): the frame theorem at a concrete one-rule merge. -/
theorem c7_merge_frame_witness :
    (mergeTemplateRules [c7ex] [c7t] 20).1.take 1 = [c7ex] ∧
    ∀ r ∈ (mergeTemplateRules [c7ex] [c7t] 20).1.drop 1,
      r.fromTemplate = true := by
  have h := c7_merge_frame [c7ex] [c7t] 20 (fun i h => by
    have hi : i = 0 := by simp at h; omega
    subst hi; rfl)
  exact h

/-! ## Claim C2 — the round-trip law

`parse(serialize(R))` preserves the `(filetype, pattern, comment)`
tuples.  The claim as stated (only non-empty pattern and filetype
required) fails — the serializer trims the comment, the parser cuts the
line at the first `##` and renormalizes whitespace in the pattern — so
the law is proved under the wire-format-compatible conditions those
counterexamples force. -/

/-- C2 (counterexample data): a rule whose comment carries surrounding
whitespace. -/
def c2rule : Rule :=
  { id := 1, order := 1, filetype := str "text", pattern := str "//a",
    comment := str " x ", originalLine := [], fromTemplate := false }

/-- C2 (counterexample): for the single rule
`(filetype text, pattern //a, comment " x ")` — non-empty pattern and
filetype — the round trip does not reproduce the comment: the serializer
emits it trimmed, so the parsed tuple is `(text, //a, "x")` and the lists
of tuples differ. -/
theorem c2_counterexample :
    (parseTypemapTextBlock (generateTypemapText [c2rule])).map Rule.tuple ≠
      [c2rule].map Rule.tuple := by
  decide

/-- A whitespace-free, non-empty, `##`-free token of the wire format. -/
def tokenWF (t : List Char) : Prop :=
  t ≠ [] ∧ (∀ c ∈ t, isWsChar c = false) ∧ indexOfHH t = none

/-- The conditions under which a rule survives the round trip: the
filetype is a single token, the pattern is a space-join of tokens
(i.e. whitespace-normalized, with no `##` inside), and the comment is
trim-stable and newline-free. -/
def serializableRule (r : Rule) : Prop :=
  tokenWF r.filetype ∧
  (∃ ts, ts ≠ [] ∧ (∀ t ∈ ts, tokenWF t) ∧ r.pattern = joinSpace ts) ∧
  jsTrim r.comment = r.comment ∧ '\n' ∉ r.comment

theorem dropWhile_eq_self_of_head (p : α → Bool) (s : List α)
    (h : ∀ c, s.head? = some c → p c = false) : s.dropWhile p = s := by
  cases s with
  | nil => rfl
  | cons c r =>
      have := h c rfl
      rw [List.dropWhile_cons_of_neg (by simp [this])]

theorem dropWhile_append_all (p : α → Bool) (pre s : List α)
    (h : ∀ c ∈ pre, p c = true) : (pre ++ s).dropWhile p = s.dropWhile p := by
  induction pre with
  | nil => rfl
  | cons c r ih =>
      rw [List.cons_append, List.dropWhile_cons_of_pos (h c (by simp))]
      exact ih fun c hc => h c (List.mem_cons_of_mem _ hc)

/-- Trimming strips an all-whitespace prefix and suffix around a core
that starts and ends with non-whitespace. -/
theorem jsTrim_sandwich (pre core tail : List Char) (hne : core ≠ [])
    (hpre : ∀ c ∈ pre, isWsChar c = true)
    (htail : ∀ c ∈ tail, isWsChar c = true)
    (hhead : ∀ c, core.head? = some c → isWsChar c = false)
    (hlast : ∀ c, core.getLast? = some c → isWsChar c = false) :
    jsTrim (pre ++ core ++ tail) = core := by
  unfold jsTrim
  rw [List.append_assoc, dropWhile_append_all _ pre _ hpre]
  have h1 : (core ++ tail).dropWhile isWsChar = core ++ tail := by
    cases core with
    | nil => exact absurd rfl hne
    | cons c r =>
        exact dropWhile_eq_self_of_head _ _ (by
          intro d hd
          simp only [List.cons_append, List.head?_cons, Option.some.injEq] at hd
          subst hd
          exact hhead c rfl)
  rw [h1, List.reverse_append, dropWhile_append_all _ tail.reverse _ (by
    intro c hc
    exact htail c (by simpa using hc))]
  have h2 : core.reverse.dropWhile isWsChar = core.reverse := by
    refine dropWhile_eq_self_of_head _ _ ?_
    intro d hd
    rw [List.head?_reverse] at hd
    exact hlast d hd
  rw [h2, List.reverse_reverse]

theorem indexOfHH_cons_none (c : Char) (r : List Char)
    (h : indexOfHH (c :: r) = none) :
    startsWithHH (c :: r) = false ∧ indexOfHH r = none := by
  rw [indexOfHH] at h
  by_cases hs : startsWithHH (c :: r) = true
  · rw [if_pos hs] at h; exact absurd h (by simp)
  · rw [if_neg hs] at h
    exact ⟨Bool.eq_false_iff.mpr hs, by
      rcases hr : indexOfHH r with _ | i
      · rfl
      · rw [hr] at h; exact absurd h (by simp)⟩

/-- A `##`-free token followed by a non-`#` separator and a `##`-free
remainder is `##`-free. -/
theorem indexOfHH_append_sep (sep : Char) (hsep : sep ≠ '#') :
    ∀ (t rest : List Char), indexOfHH t = none → indexOfHH rest = none →
      indexOfHH (t ++ sep :: rest) = none := by
  intro t
  induction t with
  | nil =>
      intro rest _ hrest
      rw [List.nil_append, indexOfHH]
      rw [if_neg (by
        simp only [startsWithHH, List.take_cons_succ, decide_eq_true_eq]
        intro hcontra
        exact hsep (by injection hcontra))]
      rw [hrest]
      rfl
  | cons c t' ih =>
      intro rest ht hrest
      obtain ⟨hs, ht'⟩ := indexOfHH_cons_none c t' ht
      rw [List.cons_append, indexOfHH]
      have hs2 : startsWithHH (c :: (t' ++ sep :: rest)) = false := by
        cases t' with
        | nil =>
            simp only [startsWithHH, List.nil_append, List.take_cons_succ,
              decide_eq_false_iff_not]
            intro hcontra
            have : sep = '#' := by
              have := congrArg (fun l => l.tail) hcontra
              simpa using this
            exact hsep this
        | cons d t'' =>
            simp only [startsWithHH, List.cons_append, List.take_cons_succ] at hs ⊢
            exact hs
      rw [if_neg (by simp [hs2]), ih rest ht' hrest]
      rfl

/-- Inserting the ` ## ` marker after a `##`-free base puts the first
occurrence of `##` exactly one past the end of the base. -/
theorem indexOfHH_marker :
    ∀ (base tail : List Char), indexOfHH base = none →
      indexOfHH (base ++ ' ' :: '#' :: '#' :: tail) = some (base.length + 1) := by
  intro base
  induction base with
  | nil =>
      intro tail _
      rw [List.nil_append, indexOfHH]
      rw [if_neg (by simp [startsWithHH])]
      rw [indexOfHH, if_pos (by simp [startsWithHH])]
      rfl
  | cons c base' ih =>
      intro tail ht
      obtain ⟨hs, ht'⟩ := indexOfHH_cons_none c base' ht
      rw [List.cons_append, indexOfHH]
      have hs2 : startsWithHH (c :: (base' ++ ' ' :: '#' :: '#' :: tail)) = false := by
        cases base' with
        | nil =>
            simp [startsWithHH]
        | cons d b'' =>
            simp only [startsWithHH, List.cons_append, List.take_cons_succ] at hs ⊢
            exact hs
      rw [if_neg (by simp [hs2]), ih tail ht']
      simp only [Option.map_some, List.length_cons]
      rfl

/-- The space-join of `##`-free tokens is `##`-free. -/
theorem indexOfHH_joinSpace :
    ∀ (ts : List (List Char)), (∀ t ∈ ts, indexOfHH t = none) →
      indexOfHH (joinSpace ts) = none := by
  intro ts
  induction ts with
  | nil => intro _; rfl
  | cons t ts2 ih =>
      intro h
      cases ts2 with
      | nil => exact h t (by simp)
      | cons t2 ts3 =>
          have hj : joinSpace (t :: t2 :: ts3) = t ++ ' ' :: joinSpace (t2 :: ts3) := rfl
          rw [hj]
          exact indexOfHH_append_sep ' ' (by decide) t _ (h t (by simp))
            (ih fun u hu => h u (List.mem_cons_of_mem _ hu))

theorem joinSpace_ne_nil (t : List Char) (ts : List (List Char)) (ht : t ≠ []) :
    joinSpace (t :: ts) ≠ [] := by
  cases ts with
  | nil => exact ht
  | cons t2 ts3 =>
      have hj : joinSpace (t :: t2 :: ts3) = t ++ ' ' :: joinSpace (t2 :: ts3) := rfl
      rw [hj]
      simp

theorem joinSpace_no_ws_head :
    ∀ (ts : List (List Char)),
      (∀ t ∈ ts, t ≠ [] ∧ ∀ c ∈ t, isWsChar c = false) →
      ∀ c, (joinSpace ts).head? = some c → isWsChar c = false := by
  intro ts
  cases ts with
  | nil => intro _ c hc; simp [joinSpace] at hc
  | cons t ts2 =>
      intro h c hc
      obtain ⟨htne, htws⟩ := h t (by simp)
      have hhd : (joinSpace (t :: ts2)).head? = t.head? := by
        cases ts2 with
        | nil => rfl
        | cons t2 ts3 =>
            have hj : joinSpace (t :: t2 :: ts3) = t ++ ' ' :: joinSpace (t2 :: ts3) := rfl
            rw [hj, List.head?_append]
            cases t with
            | nil => exact absurd rfl htne
            | cons d t' => rfl
      rw [hhd] at hc
      exact htws c (by
        cases t with
        | nil => simp at hc
        | cons d t' =>
            simp only [List.head?_cons, Option.some.injEq] at hc
            subst hc
            simp)

theorem joinSpace_no_ws_last :
    ∀ (ts : List (List Char)),
      (∀ t ∈ ts, t ≠ [] ∧ ∀ c ∈ t, isWsChar c = false) →
      ∀ c, (joinSpace ts).getLast? = some c → isWsChar c = false := by
  intro ts
  induction ts with
  | nil => intro _ c hc; simp [joinSpace] at hc
  | cons t ts2 ih =>
      intro h c hc
      obtain ⟨htne, htws⟩ := h t (by simp)
      cases ts2 with
      | nil =>
          exact htws c (getLast?_mem' hc)
      | cons t2 ts3 =>
          have hj : joinSpace (t :: t2 :: ts3) = t ++ ' ' :: joinSpace (t2 :: ts3) := rfl
          rw [hj, List.getLast?_append] at hc
          have hne2 : joinSpace (t2 :: ts3) ≠ [] :=
            joinSpace_ne_nil t2 ts3 (h t2 (by simp)).1
          have hlast2 : (' ' :: joinSpace (t2 :: ts3)).getLast? =
              (joinSpace (t2 :: ts3)).getLast? := by
            cases hj2 : joinSpace (t2 :: ts3) with
            | nil => exact absurd hj2 hne2
            | cons d r => rw [List.getLast?_cons_cons]
          rw [hlast2] at hc
          rcases hgl : (joinSpace (t2 :: ts3)).getLast? with _ | d
          · rw [hgl] at hc
            cases hj2 : joinSpace (t2 :: ts3) with
            | nil => exact absurd hj2 hne2
            | cons d r =>
                rw [hj2] at hgl
                have : (d :: r).getLast?.isSome := by
                  rw [List.getLast?_isSome]; simp
                rw [hgl] at this
                simp at this
          · rw [hgl] at hc
            simp only [Option.or_some, Option.some.injEq] at hc
            subst hc
            exact ih (fun u hu => h u (List.mem_cons_of_mem _ hu)) d hgl

/-- Scanning a whitespace-free token extends the accumulator. -/
theorem splitWsGo_token (t : List Char) (ht : ∀ c ∈ t, isWsChar c = false) :
    ∀ (s acc : List Char),
      splitWsGo (t ++ s) acc false = splitWsGo s (t.reverse ++ acc) false := by
  induction t with
  | nil => intro s acc; simp
  | cons c t' ih =>
      intro s acc
      have hc : isWsChar c = false := ht c (by simp)
      rw [List.cons_append, splitWsGo, if_neg (by simp [hc])]
      rw [ih (fun d hd => ht d (List.mem_cons_of_mem _ hd)) s (c :: acc)]
      simp

/-- After a separator run, a non-whitespace head starts a new token the
same way in both scanner modes. -/
theorem splitWsGo_true_eq_false (c : Char) (r : List Char)
    (hc : isWsChar c = false) :
    splitWsGo (c :: r) [] true = splitWsGo (c :: r) [] false := by
  rw [splitWsGo, splitWsGo, if_neg (by simp [hc]), if_neg (by simp [hc])]

/-- Splitting the space-join of non-empty whitespace-free tokens
recovers the tokens. -/
theorem jsSplitWs_joinSpace :
    ∀ (ts : List (List Char)),
      (∀ t ∈ ts, t ≠ [] ∧ ∀ c ∈ t, isWsChar c = false) → ts ≠ [] →
      jsSplitWs (joinSpace ts) = ts := by
  intro ts
  induction ts with
  | nil => intro _ h; exact absurd rfl h
  | cons t ts2 ih =>
      intro h _
      obtain ⟨htne, htws⟩ := h t (by simp)
      cases ts2 with
      | nil =>
          show splitWsGo (joinSpace [t]) [] false = [t]
          have hj : joinSpace [t] = t ++ [] := by simp [joinSpace]
          rw [hj, splitWsGo_token t htws [] []]
          simp [splitWsGo]
      | cons t2 ts3 =>
          show splitWsGo (joinSpace (t :: t2 :: ts3)) [] false = t :: t2 :: ts3
          have hj : joinSpace (t :: t2 :: ts3) = t ++ ' ' :: joinSpace (t2 :: ts3) := rfl
          rw [hj, splitWsGo_token t htws _ []]
          rw [splitWsGo, if_pos (by simp [isWsChar])]
          obtain ⟨d, rest', hdr⟩ : ∃ d rest', joinSpace (t2 :: ts3) = d :: rest' := by
            rcases hj2 : joinSpace (t2 :: ts3) with _ | ⟨d, rest'⟩
            · exact absurd hj2 (joinSpace_ne_nil t2 ts3 (h t2 (by simp)).1)
            · exact ⟨d, rest', rfl⟩
          have hd : isWsChar d = false :=
            joinSpace_no_ws_head (t2 :: ts3)
              (fun u hu => h u (List.mem_cons_of_mem _ hu)) d
              (by rw [hdr]; rfl)
          rw [hdr, splitWsGo_true_eq_false d rest' hd]
          have := ih (fun u hu => h u (List.mem_cons_of_mem _ hu)) (by simp)
          rw [show jsSplitWs (joinSpace (t2 :: ts3)) =
            splitWsGo (joinSpace (t2 :: ts3)) [] false from rfl, hdr] at this
          rw [this]
          simp

theorem startsWithHH_false_of_none (s : List Char) (h : indexOfHH s = none) :
    startsWithHH s = false := by
  cases s with
  | nil => rfl
  | cons c r => exact (indexOfHH_cons_none c r h).1

theorem startsWithHH_false_of_pos (s : List Char) (n : Nat)
    (h : indexOfHH s = some (n + 1)) : startsWithHH s = false := by
  cases s with
  | nil => simp [indexOfHH] at h
  | cons c r =>
      by_cases hs : startsWithHH (c :: r) = true
      · rw [indexOfHH, if_pos hs] at h
        exact absurd h (by simp)
      · exact Bool.eq_false_iff.mpr hs

/-- The heart of the round trip: parsing the rendered line of a
serializable rule recovers its `(filetype, pattern, comment)` tuple. -/
theorem parseTypemapLine_render (r : Rule) (hwf : serializableRule r) :
    parseTypemapLine (renderRuleLine r) =
      some (r.filetype, r.pattern, r.comment) := by
  obtain ⟨⟨hftne, hftws, hftHH⟩, ⟨ts, htsne, htstok, hpat⟩, hctrim, hcnl⟩ := hwf
  rcases ts with _ | ⟨u, ts'⟩
  · exact absurd rfl htsne
  have hallTok : ∀ t ∈ r.filetype :: u :: ts',
      t ≠ [] ∧ ∀ c ∈ t, isWsChar c = false := by
    intro t htm
    rcases List.mem_cons.mp htm with rfl | hm
    · exact ⟨hftne, hftws⟩
    · exact ⟨(htstok t hm).1, (htstok t hm).2.1⟩
  have hbase_join : r.filetype ++ ' ' :: r.pattern =
      joinSpace (r.filetype :: u :: ts') := by
    have hj : joinSpace (r.filetype :: u :: ts') =
        r.filetype ++ ' ' :: joinSpace (u :: ts') := rfl
    rw [hj, ← hpat]
  have hJne : joinSpace (r.filetype :: u :: ts') ≠ [] :=
    joinSpace_ne_nil _ _ hftne
  have hJhead : ∀ c, (joinSpace (r.filetype :: u :: ts')).head? = some c →
      isWsChar c = false := joinSpace_no_ws_head _ hallTok
  have hJlast : ∀ c, (joinSpace (r.filetype :: u :: ts')).getLast? = some c →
      isWsChar c = false := joinSpace_no_ws_last _ hallTok
  have hJHH : indexOfHH (joinSpace (r.filetype :: u :: ts')) = none := by
    refine indexOfHH_joinSpace _ ?_
    intro t htm
    rcases List.mem_cons.mp htm with rfl | hm
    · exact hftHH
    · exact (htstok t hm).2.2
  have hJsplit : jsSplitWs (joinSpace (r.filetype :: u :: ts')) =
      r.filetype :: u :: ts' :=
    jsSplitWs_joinSpace _ hallTok (by simp)
  have hprews : ∀ c ∈ str "        ", isWsChar c = true := by decide
  by_cases hcm : r.comment = []
  · -- no comment emitted
    have hrender : renderRuleLine r =
        str "        " ++ joinSpace (r.filetype :: u :: ts') := by
      rw [renderRuleLine]
      rw [if_neg (by rw [hctrim, hcm]; simp)]
      show str "        " ++ r.filetype ++ [' '] ++ r.pattern = _
      rw [List.append_assoc, List.append_assoc, List.singleton_append, hbase_join]
    have htrim : jsTrim (str "        " ++ joinSpace (r.filetype :: u :: ts')) =
        joinSpace (r.filetype :: u :: ts') := by
      have := jsTrim_sandwich (str "        ")
        (joinSpace (r.filetype :: u :: ts')) [] hJne hprews (by simp) hJhead hJlast
      simpa using this
    rw [hrender, parseTypemapLine]
    simp only [htrim]
    rw [if_neg hJne,
      if_neg (by simp [startsWithHH_false_of_none _ hJHH]), hJHH]
    simp only [hJsplit]
    rw [hpat, hcm]
  · -- comment emitted: line = 8sp ++ J ++ " ## " ++ comment
    have hcomtrim : jsTrim r.comment ≠ [] := by rw [hctrim]; exact hcm
    have hchead : ∀ c, r.comment.head? = some c → isWsChar c = false := by
      intro c hc
      exact jsTrim_head?_not r.comment c (by rw [hctrim]; exact hc)
    have hclast : ∀ c, r.comment.getLast? = some c → isWsChar c = false := by
      intro c hc
      exact jsTrim_getLast?_not r.comment c (by rw [hctrim]; exact hc)
    have hrender : renderRuleLine r =
        str "        " ++ (joinSpace (r.filetype :: u :: ts') ++
          ' ' :: '#' :: '#' :: ' ' :: r.comment) := by
      rw [renderRuleLine]
      rw [if_pos hcomtrim]
      show str "        " ++ r.filetype ++ [' '] ++ r.pattern ++ str " ## " ++
        jsTrim r.comment = _
      rw [hctrim, ← hbase_join,
        show str " ## " = ' ' :: '#' :: '#' :: [' '] from rfl]
      simp [List.append_assoc]
    have hcorehead : ∀ c, (joinSpace (r.filetype :: u :: ts') ++
        ' ' :: '#' :: '#' :: ' ' :: r.comment).head? = some c →
        isWsChar c = false := by
      intro c hc
      apply hJhead c
      rcases hJ : joinSpace (r.filetype :: u :: ts') with _ | ⟨d, J'⟩
      · exact absurd hJ hJne
      · rw [hJ] at hc
        simpa using hc
    have hcorelast : ∀ c, (joinSpace (r.filetype :: u :: ts') ++
        ' ' :: '#' :: '#' :: ' ' :: r.comment).getLast? = some c →
        isWsChar c = false := by
      intro c hc
      apply hclast c
      rw [show joinSpace (r.filetype :: u :: ts') ++
        ' ' :: '#' :: '#' :: ' ' :: r.comment =
        (joinSpace (r.filetype :: u :: ts') ++ [' ', '#', '#', ' ']) ++
          r.comment from by simp, List.getLast?_append] at hc
      rcases hgl : r.comment.getLast? with _ | d
      · rcases hcm2 : r.comment with _ | ⟨e, es⟩
        · exact absurd hcm2 hcm
        · rw [hcm2] at hgl
          have : (e :: es).getLast?.isSome := by
            rw [List.getLast?_isSome]; simp
          rw [hgl] at this
          simp at this
      · rw [hgl] at hc
        simp only [Option.or_some, Option.some.injEq] at hc
        rw [hc]
    have hcore_ne : joinSpace (r.filetype :: u :: ts') ++
        ' ' :: '#' :: '#' :: ' ' :: r.comment ≠ [] := by simp
    have htrim : jsTrim (str "        " ++ (joinSpace (r.filetype :: u :: ts') ++
        ' ' :: '#' :: '#' :: ' ' :: r.comment)) =
        joinSpace (r.filetype :: u :: ts') ++
          ' ' :: '#' :: '#' :: ' ' :: r.comment := by
      have := jsTrim_sandwich (str "        ")
        (joinSpace (r.filetype :: u :: ts') ++
          ' ' :: '#' :: '#' :: ' ' :: r.comment) [] hcore_ne hprews (by simp)
        hcorehead hcorelast
      simpa using this
    have hmarker : indexOfHH (joinSpace (r.filetype :: u :: ts') ++
        ' ' :: '#' :: '#' :: ' ' :: r.comment) =
        some ((joinSpace (r.filetype :: u :: ts')).length + 1) :=
      indexOfHH_marker _ (' ' :: r.comment) hJHH
    have htake : (joinSpace (r.filetype :: u :: ts') ++
        ' ' :: '#' :: '#' :: ' ' :: r.comment).take
          ((joinSpace (r.filetype :: u :: ts')).length + 1) =
        joinSpace (r.filetype :: u :: ts') ++ [' '] := by
      rw [List.take_append 1]
      rfl
    have htakeTrim : jsTrim (joinSpace (r.filetype :: u :: ts') ++ [' ']) =
        joinSpace (r.filetype :: u :: ts') := by
      have := jsTrim_sandwich [] (joinSpace (r.filetype :: u :: ts')) [' ']
        hJne (by simp) (by decide) hJhead hJlast
      simpa using this
    have hdrop : (joinSpace (r.filetype :: u :: ts') ++
        ' ' :: '#' :: '#' :: ' ' :: r.comment).drop
          ((joinSpace (r.filetype :: u :: ts')).length + 1 + 2) =
        ' ' :: r.comment := by
      rw [show (joinSpace (r.filetype :: u :: ts')).length + 1 + 2 =
        (joinSpace (r.filetype :: u :: ts')).length + 3 from by omega]
      rw [List.drop_append 3]
      rfl
    have hdropTrim : jsTrim (' ' :: r.comment) = r.comment := by
      have := jsTrim_sandwich [' '] r.comment [] hcm (by decide) (by simp)
        hchead hclast
      simpa using this
    rw [hrender, parseTypemapLine]
    simp only [htrim]
    rw [if_neg hcore_ne,
      if_neg (by
        simp [startsWithHH_false_of_pos _ _ hmarker])]
    rw [hmarker]
    simp only [htake, htakeTrim, hdrop, hdropTrim]
    simp only [hJsplit]
    rw [hpat]

/-- Membership in a space-join: a space or a token character. -/
theorem joinSpace_mem :
    ∀ (ts : List (List Char)) (c : Char), c ∈ joinSpace ts →
      c = ' ' ∨ ∃ t ∈ ts, c ∈ t := by
  intro ts
  induction ts with
  | nil => intro c hc; simp [joinSpace] at hc
  | cons t ts2 ih =>
      intro c hc
      cases ts2 with
      | nil => exact Or.inr ⟨t, by simp, hc⟩
      | cons t2 ts3 =>
          have hj : joinSpace (t :: t2 :: ts3) = t ++ ' ' :: joinSpace (t2 :: ts3) := rfl
          rw [hj] at hc
          rcases List.mem_append.mp hc with hc2 | hc2
          · exact Or.inr ⟨t, by simp, hc2⟩
          · rcases List.mem_cons.mp hc2 with rfl | hc3
            · exact Or.inl rfl
            · rcases ih c hc3 with h | ⟨t', ht', hct⟩
              · exact Or.inl h
              · exact Or.inr ⟨t', List.mem_cons_of_mem _ ht', hct⟩

/-- Rendered lines of serializable rules contain no newline. -/
theorem renderRuleLine_no_nl (r : Rule) (hwf : serializableRule r) :
    '\n' ∉ renderRuleLine r := by
  obtain ⟨⟨hftne, hftws, _⟩, ⟨ts, htsne, htstok, hpat⟩, hctrim, hcnl⟩ := hwf
  intro hmem
  have hbase : '\n' ∈ str "        " ++ r.filetype ++ [' '] ++ r.pattern → False := by
    intro hb
    rcases List.mem_append.mp hb with hb2 | hb2
    · rcases List.mem_append.mp hb2 with hb3 | hb3
      · rcases List.mem_append.mp hb3 with hb4 | hb4
        · exact absurd hb4 (by decide)
        · have := hftws '\n' hb4
          simp [isWsChar] at this
      · simp at hb3
    · rw [hpat] at hb2
      rcases joinSpace_mem ts '\n' hb2 with h | ⟨t, ht, hct⟩
      · exact absurd h (by decide)
      · have := (htstok t ht).2.1 '\n' hct
        simp [isWsChar] at this
  rw [renderRuleLine] at hmem
  by_cases hcomtrim : jsTrim r.comment ≠ []
  · rw [if_pos hcomtrim] at hmem
    rcases List.mem_append.mp hmem with hm | hm
    · rcases List.mem_append.mp hm with hm2 | hm2
      · exact hbase hm2
      · exact absurd hm2 (by decide)
    · rw [hctrim] at hm
      exact hcnl hm
  · rw [if_neg hcomtrim] at hmem
    exact hbase hmem

theorem splitNl_no_nl (s : List Char) (h : '\n' ∉ s) : splitNl s = [s] := by
  induction s with
  | nil => rfl
  | cons c r ih =>
      have hc : ¬(c = '\n') := by
        intro e
        exact h (by rw [e]; exact List.mem_cons_self _ _)
      have hr : '\n' ∉ r := fun hm => h (List.mem_cons_of_mem _ hm)
      rw [splitNl, if_neg hc, ih hr]

theorem splitNl_append_nl (l rest : List Char) (h : '\n' ∉ l) :
    splitNl (l ++ '\n' :: rest) = l :: splitNl rest := by
  induction l with
  | nil => rw [List.nil_append, splitNl, if_pos rfl]
  | cons c l' ih =>
      have hc : ¬(c = '\n') := by
        intro e
        exact h (by rw [e]; exact List.mem_cons_self _ _)
      have hl' : '\n' ∉ l' := fun hm => h (List.mem_cons_of_mem _ hm)
      rw [List.cons_append, splitNl, if_neg hc, ih hl']

theorem splitNl_joinNl :
    ∀ (lines : List (List Char)), lines ≠ [] →
      (∀ l ∈ lines, '\n' ∉ l) → splitNl (joinNl lines) = lines := by
  intro lines
  induction lines with
  | nil => intro h; exact absurd rfl h
  | cons l ls ih =>
      intro _ h
      cases ls with
      | nil => exact splitNl_no_nl l (h l (by simp))
      | cons l2 ls2 =>
          have hj : joinNl (l :: l2 :: ls2) = l ++ '\n' :: joinNl (l2 :: ls2) := rfl
          rw [hj, splitNl_append_nl l _ (h l (by simp)),
            ih (by simp) (fun u hu => h u (List.mem_cons_of_mem _ hu))]

theorem parseTypemapTextBlockGo_render :
    ∀ (rules : List Rule) (ord : Nat), (∀ r ∈ rules, serializableRule r) →
      (parseTypemapTextBlockGo (rules.map renderRuleLine) ord).map Rule.tuple =
        rules.map Rule.tuple := by
  intro rules
  induction rules with
  | nil => intro ord _; rfl
  | cons r rs ih =>
      intro ord h
      rw [List.map_cons, parseTypemapTextBlockGo,
        parseTypemapLine_render r (h r (by simp))]
      rw [List.map_cons, List.map_cons]
      rw [ih (ord + 1) (fun u hu => h u (List.mem_cons_of_mem _ hu))]
      rfl

/-- C2 (amended): for every rule list given in ascending order of its
`order` field whose rules are wire-format compatible — whitespace-free
`##`-free filetype, whitespace-normalized `##`-free pattern, trim-stable
newline-free comment — parsing the serializer's output reproduces the
`(filetype, pattern, comment)` tuples in the same order.  (The
counterexample shows the law fails under the claim's weaker premise of
mere non-emptiness.) -/
theorem c2_amended_roundtrip (rules : List Rule)
    (hsorted : rules.Pairwise (fun a b => a.order ≤ b.order))
    (hwf : ∀ r ∈ rules, serializableRule r) :
    (parseTypemapTextBlock (generateTypemapText rules)).map Rule.tuple =
      rules.map Rule.tuple := by
  have hsort : sortByOrder rules = rules :=
    sortBy'_sorted_id _ rules (hsorted.imp fun h => decide_eq_true h)
  rcases hrules : rules with _ | ⟨r0, rs⟩
  · rfl
  · rw [← hrules]
    have hlines : generateTypemapText rules = joinNl (rules.map renderRuleLine) := by
      rw [generateTypemapText, generateTypemapLines, hsort]
    have hnl : ∀ l ∈ rules.map renderRuleLine, '\n' ∉ l := by
      intro l hl
      obtain ⟨r, hr, rfl⟩ := List.mem_map.mp hl
      exact renderRuleLine_no_nl r (hwf r hr)
    rw [hlines, parseTypemapTextBlock,
      splitNl_joinNl _ (by rw [hrules]; simp) hnl]
    exact parseTypemapTextBlockGo_render rules 1 hwf

/-- C2 (witness data): a wire-format-compatible rule. -/
def c2good : Rule :=
  { id := 1, order := 1, filetype := str "text", pattern := str "//....txt",
    comment := str "docs", originalLine := [], fromTemplate := false }

/-- C2 (amended, witness): the round-trip theorem at a concrete
serializable one-rule list. -/
theorem c2_amended_roundtrip_witness :
    (parseTypemapTextBlock (generateTypemapText [c2good])).map Rule.tuple =
      [c2good].map Rule.tuple := by
  apply c2_amended_roundtrip
  · simp
  · intro r hr
    simp only [List.mem_singleton] at hr
    subst hr
    refine ⟨⟨by decide, by decide, by decide⟩,
      ⟨[str "//....txt"], by simp, ?_, rfl⟩, by decide, by decide⟩
    intro t ht
    simp only [List.mem_singleton] at ht
    subst ht
    exact ⟨by decide, by decide, by decide⟩

end Typemap
